import Mathlib

/-!
Verification development for a 9x9 connect-four-in-a-row Tic-Tac-Toe engine.

The development shallowly embeds the two core modules of the program:

* the game board (cell grid, move application, win detection, legal-move
  enumeration, cloning), and
* the AI engine (heuristic evaluation of windows, depth-limited minimax with
  alpha-beta pruning, move ordering by distance from the board center, and
  top-level best-move selection).

Cells hold one of three values (empty, X, O), mirroring the strings used by
the program.  Scores are integers; the search's alpha/beta bounds start at
minus/plus infinity, so scores are embedded into the extended integers
`WithBot (WithTop Int)`.  Stateful operations (placing a move, copying a
board) are embedded as state-passing functions.  Presentation-only effects of
the program (console rendering, animation sleeps) have no observable effect
on the engine state and are dropped.
-/

/-- A board cell: empty, or occupied by one of the two symbols. -/
inductive Cell where
  | e : Cell
  | X : Cell
  | O : Cell
deriving DecidableEq, Repr

/-- The game board: a grid of cells (indexed by row and column; the game
only ever reads indices below 9) together with the most recently placed
move, recorded with the raw integer coordinates that were supplied. -/
structure Board where
  cells : Nat → Nat → Cell
  lastMove : Option (Int × Int)

/-- The board size fixed by the program. -/
def boardSize : Nat := 9

/-- The number of consecutive cells needed to win, fixed by the program. -/
def winLength : Nat := 4

/-- A freshly constructed board: every cell empty, no last move. -/
def emptyBoard : Board := { cells := fun _ _ => Cell.e, lastMove := none }

/-- Write a single cell of a board, leaving everything else unchanged. -/
def setCell (b : Board) (r c : Nat) (s : Cell) : Board :=
  { b with cells := fun r' c' => if r' = r ∧ c' = c then s else b.cells r' c' }

/-- Place a symbol at integer coordinates: succeeds (returning the flag
`true` and the updated board) exactly when both coordinates lie in
`[0, 9)` and the target cell is empty; otherwise returns `false` with the
board unchanged. -/
def make_move (b : Board) (row col : Int) (s : Cell) : Bool × Board :=
  if 0 ≤ row ∧ row < 9 ∧ 0 ≤ col ∧ col < 9 ∧ b.cells row.toNat col.toNat = Cell.e then
    (true, { (setCell b row.toNat col.toNat s) with lastMove := some (row, col) })
  else
    (false, b)

/-- Win detection: scan every contiguous 4-cell window horizontally,
vertically, and along both diagonal directions for four cells equal to
the given symbol. -/
def check_win (b : Board) (s : Cell) : Bool :=
  ((List.range 9).any fun row =>
    (List.range 6).any fun col =>
      (List.range 4).all fun i => b.cells row (col + i) = s) ||
  ((List.range 6).any fun row =>
    (List.range 9).any fun col =>
      (List.range 4).all fun i => b.cells (row + i) col = s) ||
  ((List.range 6).any fun row =>
    (List.range 6).any fun col =>
      (List.range 4).all fun i => b.cells (row + i) (col + i) = s) ||
  ((List.range 6).any fun row =>
    (List.range' 3 6).any fun col =>
      (List.range 4).all fun i => b.cells (row + i) (col - i) = s)

/-- The board is full when no cell is empty. -/
def is_full (b : Board) : Bool :=
  (List.range 9).all fun row =>
    (List.range 9).all fun col => b.cells row col ≠ Cell.e

/-- All empty positions, enumerated in row-major order. -/
def get_empty_positions (b : Board) : List (Nat × Nat) :=
  (List.range 9).flatMap fun row =>
    (List.range 9).flatMap fun col =>
      if b.cells row col = Cell.e then [(row, col)] else []

/-- The row-major list of coordinate pairs written by the copying loop. -/
def copyOrder : List (Nat × Nat) :=
  (List.range 9).flatMap fun row => (List.range 9).map fun col => (row, col)

/-- Deep copy: construct a fresh board and write every cell of the source
board into it, cell by cell, in row-major order.  The fresh board's
last-move record is left at its initial value. -/
def get_board_copy (b : Board) : Board :=
  copyOrder.foldl
    (fun acc rc =>
      { acc with cells := fun r' c' =>
          if r' = rc.1 ∧ c' = rc.2 then b.cells rc.1 rc.2 else acc.cells r' c' })
    emptyBoard

/-- Extended integers: the score domain of the search once the infinite
alpha/beta sentinels are included. -/
abbrev E : Type := WithBot (WithTop Int)

/-- Embed a finite integer score into the extended integers. -/
def toE (z : Int) : E := ((z : WithTop Int) : E)

/-- The other symbol: the engine derives the opponent of the symbol it was
handed, treating anything other than X as having opponent X. -/
def opponent (p : Cell) : Cell :=
  if p = Cell.X then Cell.O else Cell.X

/-- Move-ordering key helper: the negated Manhattan distance of a position
from the board center (4, 4); larger values are better positions. -/
def position_value (m : Nat × Nat) : Int :=
  -((((m.1 : Int) - 4).natAbs : Int) + (((m.2 : Int) - 4).natAbs : Int))

/-- Insert a position into a list sorted by ascending negated
`position_value`, placing it before the first strictly larger key, so that
positions with equal keys keep their original relative order. -/
def insertMove (x : Nat × Nat) : List (Nat × Nat) → List (Nat × Nat)
  | [] => [x]
  | y :: t =>
    if -position_value y < -position_value x then y :: insertMove x t
    else x :: y :: t

/-- Stable sort of the move list by ascending distance from the center,
embedding the stable ascending sort the program applies to its move list. -/
def sortMoves (l : List (Nat × Nat)) : List (Nat × Nat) :=
  l.foldr insertMove []

/-- Score one window of cells for the given symbol: zero for windows
containing both symbols, otherwise a bonus for own-symbol counts and a
penalty for opponent counts. -/
def evaluate_window (p : Cell) (w : List Cell) : Int :=
  let pc := w.count p
  let oc := w.count (opponent p)
  let ec := w.count Cell.e
  if 0 < pc ∧ 0 < oc then 0
  else
    (if pc = 3 ∧ ec = 1 then 50
     else if pc = 2 ∧ ec = 2 then 10
     else if pc = 1 ∧ ec = 3 then 1
     else 0) +
    (if oc = 3 ∧ ec = 1 then -40
     else if oc = 2 ∧ ec = 2 then -8
     else 0)

/-- Sum the window scores of every contiguous 4-cell window along rows,
columns, and both diagonal directions. -/
def evaluate_lines (p : Cell) (b : Board) : Int :=
  (((List.range 9).flatMap fun row =>
    (List.range 6).map fun col =>
      evaluate_window p ((List.range 4).map fun i => b.cells row (col + i))).sum) +
  (((List.range 9).flatMap fun col =>
    (List.range 6).map fun row =>
      evaluate_window p ((List.range 4).map fun i => b.cells (row + i) col)).sum) +
  (((List.range 6).flatMap fun row =>
    (List.range 6).map fun col =>
      evaluate_window p ((List.range 4).map fun i => b.cells (row + i) (col + i))).sum) +
  (((List.range 6).flatMap fun row =>
    (List.range' 3 6).map fun col =>
      evaluate_window p ((List.range 4).map fun i => b.cells (row + i) (col - i))).sum)

/-- The fixed list of central positions that receive a positional bonus. -/
def center_region : List (Nat × Nat) :=
  [(3, 3), (3, 4), (3, 5), (4, 3), (4, 4), (4, 5), (5, 3), (5, 4), (5, 5)]

/-- Heuristic evaluation: the window-score sum plus 3 points for each own
cell and minus 3 points for each opponent cell in the central region. -/
def evaluate_board (p : Cell) (b : Board) : Int :=
  evaluate_lines p b +
    center_region.foldl
      (fun acc m =>
        if b.cells m.1 m.2 = p then acc + 3
        else if b.cells m.1 m.2 = opponent p then acc - 3
        else acc)
      0

/-- The board explored for a candidate move: a deep copy of the current
board with the given symbol placed at the move's coordinates. -/
def childBoard (s : Cell) (b : Board) (m : Nat × Nat) : Board :=
  (make_move (get_board_copy b) (m.1 : Int) (m.2 : Int) s).2

/-- The maximizing loop of the search: fold over the ordered moves keeping
the running maximum, raising alpha to it, and stopping as soon as beta is
at most alpha. -/
def abMaxLoop (child : Board → E → E → E) (s : Cell) (b : Board) :
    List (Nat × Nat) → E → E → E → E
  | [], best, _, _ => best
  | m :: rest, best, alpha, beta =>
    let sc := child (childBoard s b m) alpha beta
    let best2 := max best sc
    let alpha2 := max alpha best2
    if beta ≤ alpha2 then best2 else abMaxLoop child s b rest best2 alpha2 beta

/-- The minimizing loop of the search: fold over the ordered moves keeping
the running minimum, lowering beta to it, and stopping as soon as beta is
at most alpha. -/
def abMinLoop (child : Board → E → E → E) (s : Cell) (b : Board) :
    List (Nat × Nat) → E → E → E → E
  | [], best, _, _ => best
  | m :: rest, best, alpha, beta =>
    let sc := child (childBoard s b m) alpha beta
    let best2 := min best sc
    let beta2 := min beta best2
    if beta2 ≤ alpha then best2 else abMinLoop child s b rest best2 alpha beta2

/-- Depth-limited minimax with alpha-beta pruning.  Terminal checks come
first, in order: a win for the engine's own symbol scores 1000 plus the
remaining depth, a win for the opponent scores minus that, a full board
scores 0, and at depth 0 the heuristic evaluator is consulted.  Otherwise
the empty positions, ordered center-first, are searched recursively one
ply shallower, with the moving side's symbol placed on a copied board. -/
def minimax (p : Cell) : Nat → Board → Bool → E → E → E
  | d, b, isMax, alpha, beta =>
    if check_win b p then toE (1000 + d)
    else if check_win b (opponent p) then toE (-1000 - d)
    else if is_full b then toE 0
    else
      match d with
      | 0 => toE (evaluate_board p b)
      | d' + 1 =>
        let moves := sortMoves (get_empty_positions b)
        if isMax then
          abMaxLoop (fun b2 a2 b3 => minimax p d' b2 false a2 b3) p b moves ⊥ alpha beta
        else
          abMinLoop (fun b2 a2 b3 => minimax p d' b2 true a2 b3) (opponent p) b moves ⊤ alpha beta

/-- The top-level selection loop: try each ordered candidate move, score it
with the minimizing opponent to move one ply shallower, record the move on
a strict score improvement, and raise alpha to the running best score.
Beta stays at plus infinity throughout. -/
def bmLoop (p : Cell) (dl : Nat) (b : Board) :
    List (Nat × Nat) → E → Option (Nat × Nat) → E → E × Option (Nat × Nat)
  | [], best, bm, _ => (best, bm)
  | m :: rest, best, bm, alpha =>
    let sc := minimax p (dl - 1) (childBoard p b m) false alpha (⊤ : E)
    let best2 := if best < sc then sc else best
    let bm2 := if best < sc then some m else bm
    let alpha2 := max alpha best2
    bmLoop p dl b rest best2 bm2 alpha2

/-- Find the best move for the given symbol: order the empty positions
center-first, score each with the pruning search, and return the best.
The program falls back to a random choice when no candidate ever improved
on the minus-infinity initial score; that nondeterministic branch is
embedded as `none`. -/
def get_best_move (b : Board) (p : Cell) (depth_limit : Nat) : Option (Nat × Nat) :=
  let moves := sortMoves (get_empty_positions b)
  match (bmLoop p depth_limit b moves ⊥ none ⊥).2 with
  | some m => some m
  | none => none

/-- Whether placing the given symbol at a position (on a copy of the
board) produces a winning line for that symbol. -/
def completesAfter (b : Board) (p : Cell) (m : Nat × Nat) : Bool :=
  check_win (childBoard p b m) p

/-- Exhaustive depth-limited minimax without pruning, used as the reference
point for alpha-beta equivalence: the same terminal values and the same
heuristic at depth 0, but every child of a search node is always explored
and combined with plain maximum or minimum. -/
def plainMinimax (p : Cell) : Nat → Board → Bool → E
  | d, b, isMax =>
    if check_win b p then toE (1000 + d)
    else if check_win b (opponent p) then toE (-1000 - d)
    else if is_full b then toE 0
    else
      match d with
      | 0 => toE (evaluate_board p b)
      | d' + 1 =>
        let moves := sortMoves (get_empty_positions b)
        if isMax then
          ((moves.map fun m => plainMinimax p d' (childBoard p b m) false).foldl max ⊥)
        else
          ((moves.map fun m => plainMinimax p d' (childBoard (opponent p) b m) true).foldl min ⊤)

/-- Fuel-counting variant of the maximizing loop: propagates exhaustion of
the recursion budget from any child. -/
def fuelMaxLoop (child : Board → E → E → Option E) (s : Cell) (b : Board) :
    List (Nat × Nat) → E → E → E → Option E
  | [], best, _, _ => some best
  | m :: rest, best, alpha, beta =>
    match child (childBoard s b m) alpha beta with
    | none => none
    | some sc =>
      let best2 := max best sc
      let alpha2 := max alpha best2
      if beta ≤ alpha2 then some best2 else fuelMaxLoop child s b rest best2 alpha2 beta

/-- Fuel-counting variant of the minimizing loop. -/
def fuelMinLoop (child : Board → E → E → Option E) (s : Cell) (b : Board) :
    List (Nat × Nat) → E → E → E → Option E
  | [], best, _, _ => some best
  | m :: rest, best, alpha, beta =>
    match child (childBoard s b m) alpha beta with
    | none => none
    | some sc =>
      let best2 := min best sc
      let beta2 := min beta best2
      if beta2 ≤ alpha then some best2 else fuelMinLoop child s b rest best2 alpha beta2

/-- The search instrumented with a fuel counter charged once per recursive
call: returns `none` when the nesting of recursive calls exceeds the fuel,
so that termination of the search within a bounded number of plies is the
statement that enough fuel always yields `some`. -/
def minimaxFuel (p : Cell) : Nat → Nat → Board → Bool → E → E → Option E
  | 0, _, _, _, _, _ => none
  | fuel + 1, d, b, isMax, alpha, beta =>
    if check_win b p then some (toE (1000 + d))
    else if check_win b (opponent p) then some (toE (-1000 - d))
    else if is_full b then some (toE 0)
    else
      match d with
      | 0 => some (toE (evaluate_board p b))
      | d' + 1 =>
        let moves := sortMoves (get_empty_positions b)
        if isMax then
          fuelMaxLoop (fun b2 a2 b3 => minimaxFuel p fuel d' b2 false a2 b3) p b moves ⊥ alpha beta
        else
          fuelMinLoop (fun b2 a2 b3 => minimaxFuel p fuel d' b2 true a2 b3) (opponent p) b moves ⊤ alpha beta

/-- The window-score table as the specification words it: a window holding
both symbols is dead and scores 0; otherwise the score is determined by
the occupancy counts, with every unlisted occupancy scoring 0. -/
def specWindowScore (p : Cell) (w : List Cell) : Int :=
  if p ∈ w ∧ opponent p ∈ w then 0
  else if w.count p = 3 ∧ w.count Cell.e = 1 then 50
  else if w.count p = 2 ∧ w.count Cell.e = 2 then 10
  else if w.count p = 1 ∧ w.count Cell.e = 3 then 1
  else if w.count (opponent p) = 3 ∧ w.count Cell.e = 1 then -40
  else if w.count (opponent p) = 2 ∧ w.count Cell.e = 2 then -8
  else 0

/-- Every contiguous 4-cell window of the board, in all four orientations:
rows, columns, down-right diagonals, and down-left diagonals. -/
def allWindows (b : Board) : List (List Cell) :=
  ((List.range 9).flatMap fun r =>
    (List.range 6).map fun c => (List.range 4).map fun i => b.cells r (c + i)) ++
  ((List.range 9).flatMap fun c =>
    (List.range 6).map fun r => (List.range 4).map fun i => b.cells (r + i) c) ++
  ((List.range 6).flatMap fun r =>
    (List.range 6).map fun c => (List.range 4).map fun i => b.cells (r + i) (c + i)) ++
  ((List.range 6).flatMap fun r =>
    (List.range' 3 6).map fun c => (List.range 4).map fun i => b.cells (r + i) (c - i))

/-- The positional bonus as the specification words it: +3 per own cell
and -3 per opponent cell over the 3-by-3 center block, rows 3 to 5 and
columns 3 to 5. -/
def centerBonus (p : Cell) (b : Board) : Int :=
  (((List.range' 3 3).flatMap fun r =>
    (List.range' 3 3).map fun c =>
      if b.cells r c = p then 3 else if b.cells r c = opponent p then -3 else 0).sum)

/-- The winning-line predicate as the specification words it: some
contiguous run of 4 cells equal to the symbol along a row, a column, a
down-right diagonal, or a down-left diagonal. -/
def HasFourRun (b : Board) (s : Cell) : Prop :=
  (∃ r c, r < 9 ∧ c + 3 < 9 ∧ ∀ i < 4, b.cells r (c + i) = s) ∨
  (∃ r c, r + 3 < 9 ∧ c < 9 ∧ ∀ i < 4, b.cells (r + i) c = s) ∨
  (∃ r c, r + 3 < 9 ∧ c + 3 < 9 ∧ ∀ i < 4, b.cells (r + i) (c + i) = s) ∨
  (∃ r c, r + 3 < 9 ∧ 3 ≤ c ∧ c < 9 ∧ ∀ i < 4, b.cells (r + i) (c - i) = s)

/-- Manhattan distance of a position from the board center (4, 4). -/
def manhattan (m : Nat × Nat) : Nat :=
  ((m.1 : Int) - 4).natAbs + ((m.2 : Int) - 4).natAbs

/-- The row-major enumeration of every board coordinate. -/
def allPositions : List (Nat × Nat) :=
  (List.range 9).flatMap fun r => (List.range 9).map fun c => (r, c)

/-- The center-first move order as the specification words it: positions
grouped by ascending Manhattan distance from the center, each distance
group keeping the original enumeration order. -/
def centerOrdered (l : List (Nat × Nat)) : List (Nat × Nat) :=
  (List.range 17).flatMap fun d => l.filter fun m => manhattan m = d

/-- The fail-soft alpha-beta relation between a pruned score and the exact
score over a window: a pruned result at or below alpha bounds the exact
score from above, one at or above beta bounds it from below, and one
strictly inside the window is exact. -/
def Rel3 (r v alpha beta : E) : Prop :=
  (r ≤ alpha → v ≤ r) ∧ (beta ≤ r → r ≤ v) ∧ (alpha < r → r < beta → r = v)

/-- A board on which the mover has a one-move win but the heuristic rewards
a different move more: rows 0, 2, 4 and 6 carry the pattern XXX.XXX.. -/
def cexBoard : Board :=
  { cells := fun r c => if r ≤ 6 ∧ r % 2 = 0 ∧ c ≤ 6 ∧ c ≠ 3 then Cell.X else Cell.e,
    lastMove := none }

/-- A nearly full board with three empty cells, one of which completes a
win for X; the filled part follows a period-4 stripe pattern with no
4-in-a-row for either symbol. -/
def nearFullBoard : Board :=
  { cells := fun r c =>
      if (r = 0 ∧ c = 3) ∨ (r = 4 ∧ c = 4) ∨ (r = 8 ∧ c = 8) then Cell.e
      else if r = 0 ∧ c = 2 then Cell.X
      else if (2 * r + c) % 4 < 2 then Cell.X
      else Cell.O,
    lastMove := none }

/-- A board with a completed row of four X in the top-left corner. -/
def rowWinBoard : Board :=
  { cells := fun r c => if r = 0 ∧ c ≤ 3 then Cell.X else Cell.e, lastMove := none }

/-- An empty grid whose last-move record is set, for distinguishing cell
contents from presentation state. -/
def lastMoveBoard : Board :=
  { cells := fun _ _ => Cell.e, lastMove := some (0, 0) }

theorem toE_le_toE {a b : Int} : toE a ≤ toE b ↔ a ≤ b := by
  simp [toE]

theorem toE_lt_toE {a b : Int} : toE a < toE b ↔ a < b := by
  simp [toE]

theorem bot_lt_toE (z : Int) : (⊥ : E) < toE z := by
  simp [toE]

theorem toE_lt_top (z : Int) : toE z < (⊤ : E) := by
  have h : ((z : WithTop Int) : E) < ((⊤ : WithTop Int) : E) :=
    WithBot.coe_lt_coe.mpr (WithTop.coe_lt_top z)
  simpa [toE, WithBot.coe_top] using h

theorem toE_ne_bot (z : Int) : toE z ≠ (⊥ : E) :=
  ne_of_gt (bot_lt_toE z)

theorem bot_lt_top_E : (⊥ : E) < (⊤ : E) :=
  lt_of_lt_of_le (bot_lt_toE 0) le_top

theorem foldl_max_acc (l : List E) (a : E) : l.foldl max a = max a (l.foldl max ⊥) := by
  induction l generalizing a with
  | nil => simp
  | cons x t ih =>
    simp only [List.foldl_cons]
    rw [ih (max a x), ih (max ⊥ x)]
    simp [max_assoc]

theorem le_foldl_max (l : List E) (a : E) : a ≤ l.foldl max a := by
  induction l generalizing a with
  | nil => simp
  | cons x t ih =>
    simp only [List.foldl_cons]
    exact le_trans (le_max_left a x) (ih (max a x))

theorem foldl_max_le {l : List E} {a c : E} (h : ∀ x ∈ l, x ≤ c) (ha : a ≤ c) :
    l.foldl max a ≤ c := by
  induction l generalizing a with
  | nil => simpa
  | cons x t ih =>
    simp only [List.foldl_cons]
    exact ih (fun y hy => h y (List.mem_cons_of_mem x hy))
      (max_le ha (h x (List.mem_cons_self x t)))

theorem mem_le_foldl_max {l : List E} {x : E} (hx : x ∈ l) (a : E) : x ≤ l.foldl max a := by
  induction l generalizing a with
  | nil => cases hx
  | cons y t ih =>
    simp only [List.foldl_cons]
    rcases List.mem_cons.mp hx with h | h
    · subst h
      exact le_trans (le_max_right a x) (le_foldl_max t (max a x))
    · exact ih h (max a y)

theorem foldl_max_eq_acc_or_mem (l : List E) (a : E) :
    l.foldl max a = a ∨ l.foldl max a ∈ l := by
  induction l generalizing a with
  | nil => exact Or.inl rfl
  | cons x t ih =>
    simp only [List.foldl_cons]
    rcases ih (max a x) with h | h
    · rcases max_choice a x with h2 | h2
      · exact Or.inl (h.trans h2)
      · refine Or.inr ?_
        rw [h, h2]
        exact List.mem_cons_self x t
    · exact Or.inr (List.mem_cons_of_mem x h)

theorem foldl_min_acc (l : List E) (a : E) : l.foldl min a = min a (l.foldl min ⊤) := by
  induction l generalizing a with
  | nil => simp
  | cons x t ih =>
    simp only [List.foldl_cons]
    rw [ih (min a x), ih (min ⊤ x)]
    simp [min_assoc]

theorem foldl_min_le_self (l : List E) (a : E) : l.foldl min a ≤ a := by
  induction l generalizing a with
  | nil => simp
  | cons x t ih =>
    simp only [List.foldl_cons]
    exact le_trans (ih (min a x)) (min_le_left a x)

theorem le_foldl_min {l : List E} {a c : E} (h : ∀ x ∈ l, c ≤ x) (ha : c ≤ a) :
    c ≤ l.foldl min a := by
  induction l generalizing a with
  | nil => simpa
  | cons x t ih =>
    simp only [List.foldl_cons]
    exact ih (fun y hy => h y (List.mem_cons_of_mem x hy))
      (le_min ha (h x (List.mem_cons_self x t)))

theorem foldl_min_le_mem {l : List E} {x : E} (hx : x ∈ l) (a : E) : l.foldl min a ≤ x := by
  induction l generalizing a with
  | nil => cases hx
  | cons y t ih =>
    simp only [List.foldl_cons]
    rcases List.mem_cons.mp hx with h | h
    · subst h
      exact le_trans (foldl_min_le_self t (min a x)) (min_le_right a x)
    · exact ih h (min a y)

theorem foldl_min_eq_acc_or_mem (l : List E) (a : E) :
    l.foldl min a = a ∨ l.foldl min a ∈ l := by
  induction l generalizing a with
  | nil => exact Or.inl rfl
  | cons x t ih =>
    simp only [List.foldl_cons]
    rcases ih (min a x) with h | h
    · rcases min_choice a x with h2 | h2
      · exact Or.inl (h.trans h2)
      · refine Or.inr ?_
        rw [h, h2]
        exact List.mem_cons_self x t
    · exact Or.inr (List.mem_cons_of_mem x h)

theorem mem_ite_singleton {α : Type} {x y : α} {P : Prop} [Decidable P] :
    (x ∈ if P then [y] else []) ↔ P ∧ x = y := by
  split <;> simp_all

theorem mem_allPositions (m : Nat × Nat) : m ∈ allPositions ↔ m.1 < 9 ∧ m.2 < 9 := by
  obtain ⟨r, c⟩ := m
  simp [allPositions, List.mem_flatMap, List.mem_map, List.mem_range]

theorem mem_get_empty_positions {b : Board} {m : Nat × Nat} :
    m ∈ get_empty_positions b ↔ m.1 < 9 ∧ m.2 < 9 ∧ b.cells m.1 m.2 = Cell.e := by
  obtain ⟨r, c⟩ := m
  simp only [get_empty_positions, List.mem_flatMap, List.mem_range, mem_ite_singleton]
  constructor
  · rintro ⟨r', hr', c', hc', he, heq⟩
    obtain ⟨rfl, rfl⟩ := Prod.mk.injEq .. ▸ heq
    exact ⟨hr', hc', he⟩
  · rintro ⟨hr, hc, he⟩
    exact ⟨r, hr, c, hc, he, rfl⟩

theorem flatMap_filter {α β : Type} (l : List α) (f : α → List β) (p : β → Bool) :
    (l.flatMap f).filter p = l.flatMap fun x => (f x).filter p := by
  induction l with
  | nil => rfl
  | cons x t ih => simp [List.flatMap_cons, List.filter_append, ih]

theorem flatMap_ite_eq_filter_map {α β : Type} (l : List α) (g : α → β) (q : β → Prop)
    [DecidablePred q] :
    (l.flatMap fun x => if q (g x) then [g x] else []) =
      (l.map g).filter fun y => decide (q y) := by
  induction l with
  | nil => rfl
  | cons x t ih =>
    simp only [List.flatMap_cons, List.map_cons]
    by_cases h : q (g x)
    · rw [if_pos h, List.filter_cons_of_pos (by simpa using h)]
      simpa using ih
    · rw [if_neg h, List.filter_cons_of_neg (by simpa using h)]
      simpa using ih

theorem get_empty_positions_eq_filter (b : Board) :
    get_empty_positions b =
      allPositions.filter fun m => decide (b.cells m.1 m.2 = Cell.e) := by
  unfold get_empty_positions allPositions
  rw [flatMap_filter]
  refine List.flatMap_congr ?_
  intro r _
  exact flatMap_ite_eq_filter_map (List.range 9) (fun c => (r, c))
    (fun m => b.cells m.1 m.2 = Cell.e)

theorem get_empty_positions_ne_nil {b : Board} (h : is_full b = false) :
    get_empty_positions b ≠ [] := by
  have h2 : ¬ (∀ r < 9, ∀ c < 9, b.cells r c ≠ Cell.e) := by
    intro hall
    have hfull : is_full b = true := by
      simp only [is_full, List.all_eq_true, List.mem_range, decide_eq_true_eq]
      exact fun r hr c hc => hall r hr c hc
    rw [hfull] at h
    cases h
  push_neg at h2
  obtain ⟨r, hr, c, hc, he⟩ := h2
  exact List.ne_nil_of_mem
    ((mem_get_empty_positions (b := b) (m := (r, c))).mpr ⟨hr, hc, he⟩)

theorem copy_fold_cells (b : Board) (L : List (Nat × Nat)) (acc : Board) (r c : Nat) :
    ((L.foldl
      (fun acc rc =>
        { acc with cells := fun r' c' =>
            if r' = rc.1 ∧ c' = rc.2 then b.cells rc.1 rc.2 else acc.cells r' c' })
      acc).cells r c) =
      if (r, c) ∈ L then b.cells r c else acc.cells r c := by
  induction L generalizing acc with
  | nil => simp
  | cons rc t ih =>
    simp only [List.foldl_cons, ih, List.mem_cons]
    by_cases ht : (r, c) ∈ t
    · simp [ht]
    · by_cases hh : (r, c) = rc
      · have h1 : r = rc.1 := by rw [← hh]
        have h2 : c = rc.2 := by rw [← hh]
        simp [ht, hh, ← h1, ← h2]
      · have hne : ¬ (r = rc.1 ∧ c = rc.2) := by
          intro hand
          exact hh (Prod.ext hand.1 hand.2)
        simp [ht, hh, hne]

theorem copy_fold_lastMove (b : Board) (L : List (Nat × Nat)) (acc : Board) :
    ((L.foldl
      (fun acc rc =>
        { acc with cells := fun r' c' =>
            if r' = rc.1 ∧ c' = rc.2 then b.cells rc.1 rc.2 else acc.cells r' c' })
      acc).lastMove) = acc.lastMove := by
  induction L generalizing acc with
  | nil => rfl
  | cons rc t ih => simp only [List.foldl_cons, ih]

theorem mem_copyOrder (r c : Nat) : (r, c) ∈ copyOrder ↔ r < 9 ∧ c < 9 := by
  simp [copyOrder, List.mem_flatMap, List.mem_map, List.mem_range]

theorem get_board_copy_cells (b : Board) (r c : Nat) :
    (get_board_copy b).cells r c = if r < 9 ∧ c < 9 then b.cells r c else Cell.e := by
  unfold get_board_copy
  rw [copy_fold_cells]
  by_cases h : r < 9 ∧ c < 9
  · rw [if_pos ((mem_copyOrder r c).mpr h), if_pos h]
  · rw [if_neg (fun hmem => h ((mem_copyOrder r c).mp hmem)), if_neg h]
    rfl

theorem get_board_copy_lastMove (b : Board) : (get_board_copy b).lastMove = none := by
  unfold get_board_copy
  rw [copy_fold_lastMove]
  rfl

theorem childBoard_cells {b : Board} {m : Nat × Nat} (s : Cell)
    (h1 : m.1 < 9) (h2 : m.2 < 9) (he : b.cells m.1 m.2 = Cell.e) (r c : Nat) :
    (childBoard s b m).cells r c =
      if r = m.1 ∧ c = m.2 then s
      else if r < 9 ∧ c < 9 then b.cells r c else Cell.e := by
  unfold childBoard make_move
  have hcond : 0 ≤ (m.1 : Int) ∧ (m.1 : Int) < 9 ∧ 0 ≤ (m.2 : Int) ∧ (m.2 : Int) < 9 ∧
      (get_board_copy b).cells ((m.1 : Int)).toNat ((m.2 : Int)).toNat = Cell.e := by
    refine ⟨Int.natCast_nonneg _, by exact_mod_cast h1, Int.natCast_nonneg _,
      by exact_mod_cast h2, ?_⟩
    rw [Int.toNat_natCast, Int.toNat_natCast, get_board_copy_cells, if_pos ⟨h1, h2⟩]
    exact he
  rw [if_pos hcond]
  simp only [setCell, Int.toNat_natCast]
  by_cases hm : r = m.1 ∧ c = m.2
  · simp [hm]
  · simp only [hm, if_neg hm, if_false]
    exact get_board_copy_cells b r c

theorem check_win_congr {b1 b2 : Board} (h : b1.cells = b2.cells) (s : Cell) :
    check_win b1 s = check_win b2 s := by
  unfold check_win
  rw [h]

theorem is_full_congr {b1 b2 : Board} (h : b1.cells = b2.cells) :
    is_full b1 = is_full b2 := by
  unfold is_full
  rw [h]

theorem get_empty_positions_congr {b1 b2 : Board} (h : b1.cells = b2.cells) :
    get_empty_positions b1 = get_empty_positions b2 := by
  unfold get_empty_positions
  rw [h]

theorem get_board_copy_congr {b1 b2 : Board} (h : b1.cells = b2.cells) :
    get_board_copy b1 = get_board_copy b2 := by
  unfold get_board_copy
  rw [h]

theorem neg_position_value (m : Nat × Nat) : -position_value m = (manhattan m : Int) := by
  simp only [position_value, manhattan]
  push_cast
  ring

theorem key_lt_iff {x y : Nat × Nat} :
    (-position_value y < -position_value x) ↔ manhattan y < manhattan x := by
  rw [neg_position_value, neg_position_value]
  exact_mod_cast Int.ofNat_lt

theorem insertMove_cons (x y : Nat × Nat) (t : List (Nat × Nat)) :
    insertMove x (y :: t) =
      if -position_value y < -position_value x then y :: insertMove x t
      else x :: y :: t := rfl

theorem mem_insertMove {a x : Nat × Nat} : ∀ {l : List (Nat × Nat)},
    a ∈ insertMove x l ↔ a = x ∨ a ∈ l := by
  intro l
  induction l with
  | nil => simp [insertMove]
  | cons y t ih =>
    rw [insertMove_cons]
    by_cases hk : -position_value y < -position_value x
    · rw [if_pos hk]
      simp only [List.mem_cons, ih]
      tauto
    · rw [if_neg hk]
      simp only [List.mem_cons]

theorem insertMove_ne_nil (x : Nat × Nat) (l : List (Nat × Nat)) : insertMove x l ≠ [] := by
  cases l with
  | nil => simp [insertMove]
  | cons y t =>
    rw [insertMove_cons]
    by_cases hk : -position_value y < -position_value x
    · rw [if_pos hk]
      simp
    · rw [if_neg hk]
      simp

theorem sortMoves_cons (x : Nat × Nat) (t : List (Nat × Nat)) :
    sortMoves (x :: t) = insertMove x (sortMoves t) := rfl

theorem mem_sortMoves {a : Nat × Nat} {l : List (Nat × Nat)} :
    a ∈ sortMoves l ↔ a ∈ l := by
  induction l with
  | nil => simp [sortMoves]
  | cons x t ih =>
    rw [sortMoves_cons, mem_insertMove, ih, List.mem_cons]

theorem sortMoves_ne_nil {l : List (Nat × Nat)} (h : l ≠ []) : sortMoves l ≠ [] := by
  cases l with
  | nil => exact absurd rfl h
  | cons x t => exact sortMoves_cons x t ▸ insertMove_ne_nil x (sortMoves t)

theorem insertMove_append_of_lt (x : Nat × Nat) :
    ∀ (pre rest : List (Nat × Nat)), (∀ y ∈ pre, manhattan y < manhattan x) →
      insertMove x (pre ++ rest) = pre ++ insertMove x rest := by
  intro pre
  induction pre with
  | nil => intro rest _; rfl
  | cons y t ih =>
    intro rest h
    have hy : manhattan y < manhattan x := h y (List.mem_cons_self y t)
    rw [List.cons_append, insertMove_cons, if_pos (key_lt_iff.mpr hy),
      ih rest (fun z hz => h z (List.mem_cons_of_mem y hz)), List.cons_append]

theorem insertMove_cons_of_ge (x : Nat × Nat) (l : List (Nat × Nat))
    (h : ∀ y ∈ l, ¬ manhattan y < manhattan x) : insertMove x l = x :: l := by
  cases l with
  | nil => rfl
  | cons y t =>
    rw [insertMove_cons,
      if_neg fun hk => h y (List.mem_cons_self y t) (key_lt_iff.mp hk)]

theorem insertMove_buckets (x : Nat × Nat) :
    ∀ (D : List Nat), D.Pairwise (· < ·) → manhattan x ∈ D →
      ∀ (l : List (Nat × Nat)),
        insertMove x (D.flatMap fun d => l.filter fun m => manhattan m = d) =
          D.flatMap fun d => (x :: l).filter fun m => manhattan m = d := by
  intro D
  induction D with
  | nil => intro _ h; cases h
  | cons d D' ih =>
    intro hpw hx l
    obtain ⟨hlt, hpw'⟩ := List.pairwise_cons.mp hpw
    simp only [List.flatMap_cons]
    by_cases hdx : manhattan x = d
    · have hfront : ∀ y ∈ (l.filter fun m => manhattan m = d) ++
          (D'.flatMap fun d' => l.filter fun m => manhattan m = d'),
          ¬ manhattan y < manhattan x := by
        intro y hy
        rcases List.mem_append.mp hy with hy1 | hy2
        · have hyd : manhattan y = d := of_decide_eq_true (List.mem_filter.mp hy1).2
          omega
        · obtain ⟨d', hd', hyf⟩ := List.mem_flatMap.mp hy2
          have hyd : manhattan y = d' := of_decide_eq_true (List.mem_filter.mp hyf).2
          have hdd : d < d' := hlt d' hd'
          omega
      rw [insertMove_cons_of_ge x _ hfront]
      have hfx : ((x :: l).filter fun m => manhattan m = d) =
          x :: (l.filter fun m => manhattan m = d) := by
        rw [List.filter_cons]
        simp [hdx]
      have hrest : (D'.flatMap fun d' => (x :: l).filter fun m => manhattan m = d') =
          D'.flatMap fun d' => l.filter fun m => manhattan m = d' := by
        refine List.flatMap_congr ?_
        intro d' hd'
        have hne : manhattan x ≠ d' := by
          have hdd : d < d' := hlt d' hd'
          omega
        rw [List.filter_cons]
        simp [hne]
      rw [hfx, hrest, List.cons_append]
    · have hxD' : manhattan x ∈ D' := by
        rcases List.mem_cons.mp hx with h1 | h1
        · exact absurd h1 hdx
        · exact h1
      have hdlt : d < manhattan x := hlt _ hxD'
      rw [insertMove_append_of_lt x _ _ (fun y hy => by
        have hyd : manhattan y = d := of_decide_eq_true (List.mem_filter.mp hy).2
        omega)]
      rw [ih hpw' hxD' l]
      have hfx : ((x :: l).filter fun m => manhattan m = d) =
          l.filter fun m => manhattan m = d := by
        rw [List.filter_cons]
        simp [hdx]
      rw [hfx]

theorem sortMoves_eq_centerOrdered {l : List (Nat × Nat)}
    (h : ∀ m ∈ l, manhattan m < 17) : sortMoves l = centerOrdered l := by
  induction l with
  | nil =>
    unfold sortMoves centerOrdered
    simp
  | cons x t ih =>
    rw [sortMoves_cons, ih (fun m hm => h m (List.mem_cons_of_mem x hm))]
    unfold centerOrdered
    exact insertMove_buckets x (List.range 17) (List.pairwise_lt_range 17)
      (List.mem_range.mpr (h x (List.mem_cons_self x t))) t

theorem manhattan_lt_17 {m : Nat × Nat} (h1 : m.1 < 9) (h2 : m.2 < 9) :
    manhattan m < 17 := by
  simp only [manhattan]
  omega

theorem minimax_eq (p : Cell) (d : Nat) (b : Board) (isMax : Bool) (alpha beta : E) :
    minimax p d b isMax alpha beta =
      (if check_win b p then toE (1000 + d)
      else if check_win b (opponent p) then toE (-1000 - d)
      else if is_full b then toE 0
      else
        match d with
        | 0 => toE (evaluate_board p b)
        | d' + 1 =>
          let moves := sortMoves (get_empty_positions b)
          if isMax then
            abMaxLoop (fun b2 a2 b3 => minimax p d' b2 false a2 b3) p b moves ⊥ alpha beta
          else
            abMinLoop (fun b2 a2 b3 => minimax p d' b2 true a2 b3) (opponent p) b moves ⊤ alpha beta) := by
  rw [minimax.eq_def]

theorem abMaxLoop_nil (child : Board → E → E → E) (s : Cell) (b : Board)
    (best alpha beta : E) : abMaxLoop child s b [] best alpha beta = best := rfl

theorem abMaxLoop_cons (child : Board → E → E → E) (s : Cell) (b : Board)
    (m : Nat × Nat) (rest : List (Nat × Nat)) (best alpha beta : E) :
    abMaxLoop child s b (m :: rest) best alpha beta =
      (if beta ≤ max alpha (max best (child (childBoard s b m) alpha beta))
       then max best (child (childBoard s b m) alpha beta)
       else abMaxLoop child s b rest (max best (child (childBoard s b m) alpha beta))
              (max alpha (max best (child (childBoard s b m) alpha beta))) beta) := rfl

theorem abMinLoop_nil (child : Board → E → E → E) (s : Cell) (b : Board)
    (best alpha beta : E) : abMinLoop child s b [] best alpha beta = best := rfl

theorem abMinLoop_cons (child : Board → E → E → E) (s : Cell) (b : Board)
    (m : Nat × Nat) (rest : List (Nat × Nat)) (best alpha beta : E) :
    abMinLoop child s b (m :: rest) best alpha beta =
      (if min beta (min best (child (childBoard s b m) alpha beta)) ≤ alpha
       then min best (child (childBoard s b m) alpha beta)
       else abMinLoop child s b rest (min best (child (childBoard s b m) alpha beta))
              alpha (min beta (min best (child (childBoard s b m) alpha beta)))) := rfl

theorem abMaxLoop_ge (child : Board → E → E → E) (s : Cell) (b : Board) :
    ∀ (moves : List (Nat × Nat)) (best alpha beta : E),
      best ≤ abMaxLoop child s b moves best alpha beta := by
  intro moves
  induction moves with
  | nil => intro best alpha beta; exact le_of_eq (abMaxLoop_nil child s b best alpha beta).symm
  | cons m rest ih =>
    intro best alpha beta
    rw [abMaxLoop_cons]
    split
    · exact le_max_left best _
    · exact le_trans (le_max_left best _) (ih _ _ beta)

theorem abMinLoop_le (child : Board → E → E → E) (s : Cell) (b : Board) :
    ∀ (moves : List (Nat × Nat)) (best alpha beta : E),
      abMinLoop child s b moves best alpha beta ≤ best := by
  intro moves
  induction moves with
  | nil => intro best alpha beta; exact le_of_eq (abMinLoop_nil child s b best alpha beta)
  | cons m rest ih =>
    intro best alpha beta
    rw [abMinLoop_cons]
    split
    · exact min_le_left best _
    · exact le_trans (ih _ alpha _) (min_le_left best _)

theorem abMaxLoop_bounds (child : Board → E → E → E) (s : Cell) (b : Board)
    (hc : ∀ b' a2 b3, ⊥ < child b' a2 b3 ∧ child b' a2 b3 < ⊤) :
    ∀ (moves : List (Nat × Nat)) (best alpha beta : E), best < ⊤ →
      (⊥ < best ∨ moves ≠ []) →
      ⊥ < abMaxLoop child s b moves best alpha beta ∧
        abMaxLoop child s b moves best alpha beta < ⊤ := by
  intro moves
  induction moves with
  | nil =>
    intro best alpha beta hlt hd
    rcases hd with hb | hne
    · exact ⟨hb, hlt⟩
    · exact absurd rfl hne
  | cons m rest ih =>
    intro best alpha beta hlt _
    obtain ⟨hb1, hb2⟩ := hc (childBoard s b m) alpha beta
    rw [abMaxLoop_cons]
    have h1 : ⊥ < max best (child (childBoard s b m) alpha beta) :=
      lt_of_lt_of_le hb1 (le_max_right best _)
    have h2 : max best (child (childBoard s b m) alpha beta) < ⊤ := max_lt hlt hb2
    split
    · exact ⟨h1, h2⟩
    · exact ih _ _ beta h2 (Or.inl h1)

theorem abMinLoop_bounds (child : Board → E → E → E) (s : Cell) (b : Board)
    (hc : ∀ b' a2 b3, ⊥ < child b' a2 b3 ∧ child b' a2 b3 < ⊤) :
    ∀ (moves : List (Nat × Nat)) (best alpha beta : E), ⊥ < best →
      (best < ⊤ ∨ moves ≠ []) →
      ⊥ < abMinLoop child s b moves best alpha beta ∧
        abMinLoop child s b moves best alpha beta < ⊤ := by
  intro moves
  induction moves with
  | nil =>
    intro best alpha beta hgt hd
    rcases hd with hb | hne
    · exact ⟨hgt, hb⟩
    · exact absurd rfl hne
  | cons m rest ih =>
    intro best alpha beta hgt _
    obtain ⟨hb1, hb2⟩ := hc (childBoard s b m) alpha beta
    rw [abMinLoop_cons]
    have h1 : ⊥ < min best (child (childBoard s b m) alpha beta) := lt_min hgt hb1
    have h2 : min best (child (childBoard s b m) alpha beta) < ⊤ :=
      lt_of_le_of_lt (min_le_right best _) hb2
    split
    · exact ⟨h1, h2⟩
    · exact ih _ alpha _ h1 (Or.inl h2)

theorem minimax_finite (p : Cell) :
    ∀ (d : Nat) (b : Board) (isMax : Bool) (alpha beta : E),
      ⊥ < minimax p d b isMax alpha beta ∧ minimax p d b isMax alpha beta < ⊤ := by
  intro d
  induction d with
  | zero =>
    intro b isMax alpha beta
    rw [minimax_eq]
    split_ifs
    all_goals exact ⟨bot_lt_toE _, toE_lt_top _⟩
  | succ d' ih =>
    intro b isMax alpha beta
    rw [minimax_eq]
    split_ifs with h1 h2 h3 h4
    · exact ⟨bot_lt_toE _, toE_lt_top _⟩
    · exact ⟨bot_lt_toE _, toE_lt_top _⟩
    · exact ⟨bot_lt_toE _, toE_lt_top _⟩
    · have hne : sortMoves (get_empty_positions b) ≠ [] :=
        sortMoves_ne_nil (get_empty_positions_ne_nil (Bool.not_eq_true _ ▸ h3))
      exact abMaxLoop_bounds _ p b (fun b' a2 b3 => ih b' false a2 b3) _ ⊥ alpha beta
        bot_lt_top_E (Or.inr hne)
    · have hne : sortMoves (get_empty_positions b) ≠ [] :=
        sortMoves_ne_nil (get_empty_positions_ne_nil (Bool.not_eq_true _ ▸ h3))
      exact abMinLoop_bounds _ (opponent p) b (fun b' a2 b3 => ih b' true a2 b3) _ ⊤
        alpha beta bot_lt_top_E (Or.inr hne)

theorem plainMinimax_eq (p : Cell) (d : Nat) (b : Board) (isMax : Bool) :
    plainMinimax p d b isMax =
      (if check_win b p then toE (1000 + d)
      else if check_win b (opponent p) then toE (-1000 - d)
      else if is_full b then toE 0
      else
        match d with
        | 0 => toE (evaluate_board p b)
        | d' + 1 =>
          let moves := sortMoves (get_empty_positions b)
          if isMax then
            ((moves.map fun m => plainMinimax p d' (childBoard p b m) false).foldl max ⊥)
          else
            ((moves.map fun m =>
              plainMinimax p d' (childBoard (opponent p) b m) true).foldl min ⊤)) := by
  rw [plainMinimax.eq_def]

theorem plainMinimax_finite (p : Cell) :
    ∀ (d : Nat) (b : Board) (isMax : Bool),
      ⊥ < plainMinimax p d b isMax ∧ plainMinimax p d b isMax < ⊤ := by
  intro d
  induction d with
  | zero =>
    intro b isMax
    rw [plainMinimax_eq]
    split_ifs
    all_goals exact ⟨bot_lt_toE _, toE_lt_top _⟩
  | succ d' ih =>
    intro b isMax
    rw [plainMinimax_eq]
    split_ifs with h1 h2 h3 h4
    · exact ⟨bot_lt_toE _, toE_lt_top _⟩
    · exact ⟨bot_lt_toE _, toE_lt_top _⟩
    · exact ⟨bot_lt_toE _, toE_lt_top _⟩
    · have hne : sortMoves (get_empty_positions b) ≠ [] :=
        sortMoves_ne_nil (get_empty_positions_ne_nil (Bool.not_eq_true _ ▸ h3))
      obtain ⟨m, hm⟩ := List.exists_mem_of_ne_nil _ hne
      change ⊥ < ((sortMoves (get_empty_positions b)).map fun m =>
          plainMinimax p d' (childBoard p b m) false).foldl max ⊥ ∧
        ((sortMoves (get_empty_positions b)).map fun m =>
          plainMinimax p d' (childBoard p b m) false).foldl max ⊥ < ⊤
      constructor
      · refine lt_of_lt_of_le (ih (childBoard p b m) false).1 ?_
        exact mem_le_foldl_max
          (List.mem_map_of_mem (fun m => plainMinimax p d' (childBoard p b m) false) hm) ⊥
      · rcases foldl_max_eq_acc_or_mem
          ((sortMoves (get_empty_positions b)).map fun m =>
            plainMinimax p d' (childBoard p b m) false) ⊥ with h | h
        · rw [h]; exact bot_lt_top_E
        · obtain ⟨m2, _, hm2⟩ := List.mem_map.mp h
          rw [← hm2]
          exact (ih (childBoard p b m2) false).2
    · have hne : sortMoves (get_empty_positions b) ≠ [] :=
        sortMoves_ne_nil (get_empty_positions_ne_nil (Bool.not_eq_true _ ▸ h3))
      obtain ⟨m, hm⟩ := List.exists_mem_of_ne_nil _ hne
      change ⊥ < ((sortMoves (get_empty_positions b)).map fun m =>
          plainMinimax p d' (childBoard (opponent p) b m) true).foldl min ⊤ ∧
        ((sortMoves (get_empty_positions b)).map fun m =>
          plainMinimax p d' (childBoard (opponent p) b m) true).foldl min ⊤ < ⊤
      constructor
      · rcases foldl_min_eq_acc_or_mem
          ((sortMoves (get_empty_positions b)).map fun m =>
            plainMinimax p d' (childBoard (opponent p) b m) true) ⊤ with h | h
        · rw [h]; exact bot_lt_top_E
        · obtain ⟨m2, _, hm2⟩ := List.mem_map.mp h
          rw [← hm2]
          exact (ih (childBoard (opponent p) b m2) true).1
      · refine lt_of_le_of_lt ?_ (ih (childBoard (opponent p) b m) true).2
        exact foldl_min_le_mem
          (List.mem_map_of_mem (fun m => plainMinimax p d' (childBoard (opponent p) b m) true) hm) ⊤

theorem rel3_of_eq {x alpha beta : E} : Rel3 x x alpha beta :=
  ⟨fun _ => le_refl x, fun _ => le_refl x, fun _ _ => rfl⟩

theorem abMaxLoop_rel3 (child : Board → E → E → E) (s : Cell) (b : Board)
    (pv : Nat × Nat → E) :
    ∀ (moves : List (Nat × Nat)) (best alpha beta : E),
      best ≤ alpha → alpha < beta →
      (∀ m ∈ moves, ∀ a2 b3 : E, a2 < b3 →
        Rel3 (child (childBoard s b m) a2 b3) (pv m) a2 b3) →
      Rel3 (abMaxLoop child s b moves best alpha beta)
        ((moves.map pv).foldl max best) alpha beta := by
  intro moves
  induction moves with
  | nil => intro best alpha beta _ _ _; exact rel3_of_eq
  | cons m rest ih =>
    intro best alpha beta hba hab hmv
    have hm3 := hmv m (List.mem_cons_self m rest) alpha beta hab
    rw [abMaxLoop_cons, List.map_cons, List.foldl_cons]
    by_cases hcut : beta ≤ max alpha (max best (child (childBoard s b m) alpha beta))
    · rw [if_pos hcut]
      have hb2 : beta ≤ max best (child (childBoard s b m) alpha beta) := by
        rcases le_max_iff.mp hcut with h | h
        · exact absurd h (not_le.mpr hab)
        · exact h
      have hbest_lt : best < beta := lt_of_le_of_lt hba hab
      have hsc_eq : max best (child (childBoard s b m) alpha beta) =
          child (childBoard s b m) alpha beta := by
        rcases max_choice best (child (childBoard s b m) alpha beta) with h | h
        · exfalso
          rw [h] at hb2
          exact absurd (lt_of_le_of_lt hb2 hbest_lt) (lt_irrefl beta)
        · exact h
      refine ⟨?_, ?_, ?_⟩
      · intro hle
        exact absurd (le_trans hb2 hle) (not_le.mpr hab)
      · intro _
        rw [hsc_eq]
        have h1 : child (childBoard s b m) alpha beta ≤ pv m :=
          hm3.2.1 (hsc_eq ▸ hb2)
        exact le_trans h1 (le_trans (le_max_right best (pv m)) (le_foldl_max _ _))
      · intro _ hlt
        exact absurd (lt_of_le_of_lt hb2 hlt) (lt_irrefl beta)
    · rw [if_neg hcut]
      have hcut' : max alpha (max best (child (childBoard s b m) alpha beta)) < beta :=
        not_le.mp hcut
      have hih := ih (max best (child (childBoard s b m) alpha beta))
        (max alpha (max best (child (childBoard s b m) alpha beta))) beta
        (le_max_right _ _) hcut'
        (fun m2 hm2 => hmv m2 (List.mem_cons_of_mem m hm2))
      have hVr : (rest.map pv).foldl max (max best (child (childBoard s b m) alpha beta)) =
          max (max best (child (childBoard s b m) alpha beta))
            ((rest.map pv).foldl max ⊥) := foldl_max_acc _ _
      have hv : (rest.map pv).foldl max (max best (pv m)) =
          max (max best (pv m)) ((rest.map pv).foldl max ⊥) := foldl_max_acc _ _
      have hrge : max best (child (childBoard s b m) alpha beta) ≤
          abMaxLoop child s b rest (max best (child (childBoard s b m) alpha beta))
            (max alpha (max best (child (childBoard s b m) alpha beta))) beta :=
        abMaxLoop_ge _ _ _ _ _ _ _
      refine ⟨?_, ?_, ?_⟩
      · intro hle
        have hVr_le := hih.1 (le_trans hle (le_max_left alpha _))
        have hacc_le : max best (child (childBoard s b m) alpha beta) ≤
            (rest.map pv).foldl max (max best (child (childBoard s b m) alpha beta)) :=
          le_foldl_max _ _
        have hsc_le_r : child (childBoard s b m) alpha beta ≤
            abMaxLoop child s b rest (max best (child (childBoard s b m) alpha beta))
              (max alpha (max best (child (childBoard s b m) alpha beta))) beta :=
          le_trans (le_max_right best _) (le_trans hacc_le hVr_le)
        have hpv : pv m ≤ child (childBoard s b m) alpha beta :=
          hm3.1 (le_trans hsc_le_r hle)
        rw [hv]
        refine max_le (max_le ?_ ?_) ?_
        · exact le_trans (le_max_left best _) (le_trans hacc_le hVr_le)
        · exact le_trans hpv hsc_le_r
        · have hVle : (rest.map pv).foldl max ⊥ ≤
              (rest.map pv).foldl max (max best (child (childBoard s b m) alpha beta)) := by
            rw [hVr]
            exact le_max_right _ _
          exact le_trans hVle hVr_le
      · intro hbr
        have h1 := hih.2.1 hbr
        rw [hVr] at h1
        rcases le_max_iff.mp h1 with h2 | h2
        · rcases le_max_iff.mp h2 with h3 | h3
          · exfalso
            have hcontra := lt_of_le_of_lt (le_trans h3 hba) (lt_of_lt_of_le hab hbr)
            exact absurd hcontra (lt_irrefl _)
          · have hbs : beta ≤ child (childBoard s b m) alpha beta := le_trans hbr h3
            have h4 : child (childBoard s b m) alpha beta ≤ pv m := hm3.2.1 hbs
            rw [hv]
            exact le_trans (le_trans h3 h4)
              (le_trans (le_max_right best (pv m)) (le_max_left _ _))
        · rw [hv]
          exact le_trans h2 (le_max_right _ _)
      · intro har hrb
        by_cases hcase : max alpha (max best (child (childBoard s b m) alpha beta)) <
            abMaxLoop child s b rest (max best (child (childBoard s b m) alpha beta))
              (max alpha (max best (child (childBoard s b m) alpha beta))) beta
        · have heq := hih.2.2 hcase hrb
          have hscr : max best (child (childBoard s b m) alpha beta) <
              abMaxLoop child s b rest (max best (child (childBoard s b m) alpha beta))
                (max alpha (max best (child (childBoard s b m) alpha beta))) beta :=
            lt_of_le_of_lt (le_max_right alpha _) hcase
          have hrV : abMaxLoop child s b rest
              (max best (child (childBoard s b m) alpha beta))
              (max alpha (max best (child (childBoard s b m) alpha beta))) beta =
              (rest.map pv).foldl max ⊥ := by
            rw [hVr] at heq
            rcases max_choice (max best (child (childBoard s b m) alpha beta))
              ((rest.map pv).foldl max ⊥) with h | h
            · rw [h] at heq
              exact absurd (heq ▸ hscr) (lt_irrefl _)
            · rw [h] at heq
              exact heq
          have hbestr : best <
              abMaxLoop child s b rest (max best (child (childBoard s b m) alpha beta))
                (max alpha (max best (child (childBoard s b m) alpha beta))) beta :=
            lt_of_le_of_lt (le_max_left best _) hscr
          have hscr2 : child (childBoard s b m) alpha beta <
              abMaxLoop child s b rest (max best (child (childBoard s b m) alpha beta))
                (max alpha (max best (child (childBoard s b m) alpha beta))) beta :=
            lt_of_le_of_lt (le_max_right best _) hscr
          have hpvm : pv m ≤
              abMaxLoop child s b rest (max best (child (childBoard s b m) alpha beta))
                (max alpha (max best (child (childBoard s b m) alpha beta))) beta := by
            by_cases hsa : child (childBoard s b m) alpha beta ≤ alpha
            · exact le_trans (hm3.1 hsa) (le_of_lt hscr2)
            · have hax := not_le.mp hsa
              have hsb : child (childBoard s b m) alpha beta < beta := lt_trans hscr2 hrb
              rw [← hm3.2.2 hax hsb]
              exact le_of_lt hscr2
          rw [hv, ← hrV]
          exact (max_eq_right (max_le (le_of_lt hbestr) hpvm)).symm
        · have hle := not_lt.mp hcase
          have hr_best2 : abMaxLoop child s b rest
              (max best (child (childBoard s b m) alpha beta))
              (max alpha (max best (child (childBoard s b m) alpha beta))) beta ≤
              max best (child (childBoard s b m) alpha beta) := by
            rcases le_max_iff.mp hle with h | h
            · exact absurd h (not_le.mpr har)
            · exact h
          have hr_eq : abMaxLoop child s b rest
              (max best (child (childBoard s b m) alpha beta))
              (max alpha (max best (child (childBoard s b m) alpha beta))) beta =
              max best (child (childBoard s b m) alpha beta) :=
            le_antisymm hr_best2 hrge
          have hbest_lt2 : best <
              abMaxLoop child s b rest (max best (child (childBoard s b m) alpha beta))
                (max alpha (max best (child (childBoard s b m) alpha beta))) beta :=
            lt_of_le_of_lt hba har
          have hr_sc : abMaxLoop child s b rest
              (max best (child (childBoard s b m) alpha beta))
              (max alpha (max best (child (childBoard s b m) alpha beta))) beta =
              child (childBoard s b m) alpha beta := by
            rcases max_choice best (child (childBoard s b m) alpha beta) with h | h
            · exfalso
              exact absurd (lt_of_lt_of_eq hbest_lt2 (hr_eq.trans h)) (lt_irrefl _)
            · exact hr_eq.trans h
          have h5 : child (childBoard s b m) alpha beta = pv m :=
            hm3.2.2 (hr_sc ▸ har) (hr_sc ▸ hrb)
          have hVr_le := hih.1 hle
          rw [hVr] at hVr_le
          have hVle : (rest.map pv).foldl max ⊥ ≤
              abMaxLoop child s b rest (max best (child (childBoard s b m) alpha beta))
                (max alpha (max best (child (childBoard s b m) alpha beta))) beta :=
            le_trans (le_max_right _ _) hVr_le
          rw [hv]
          refine le_antisymm ?_ (max_le (max_le (le_of_lt hbest_lt2) ?_) hVle)
          · exact le_trans (le_of_eq (hr_sc.trans h5))
              (le_trans (le_max_right best (pv m)) (le_max_left _ _))
          · exact le_of_eq (hr_sc.trans h5).symm

theorem abMinLoop_rel3 (child : Board → E → E → E) (s : Cell) (b : Board)
    (pv : Nat × Nat → E) :
    ∀ (moves : List (Nat × Nat)) (best alpha beta : E),
      beta ≤ best → alpha < beta →
      (∀ m ∈ moves, ∀ a2 b3 : E, a2 < b3 →
        Rel3 (child (childBoard s b m) a2 b3) (pv m) a2 b3) →
      Rel3 (abMinLoop child s b moves best alpha beta)
        ((moves.map pv).foldl min best) alpha beta := by
  intro moves
  induction moves with
  | nil => intro best alpha beta _ _ _; exact rel3_of_eq
  | cons m rest ih =>
    intro best alpha beta hba hab hmv
    have hm3 := hmv m (List.mem_cons_self m rest) alpha beta hab
    rw [abMinLoop_cons, List.map_cons, List.foldl_cons]
    by_cases hcut : min beta (min best (child (childBoard s b m) alpha beta)) ≤ alpha
    · rw [if_pos hcut]
      have hr_alpha : min best (child (childBoard s b m) alpha beta) ≤ alpha := by
        rcases min_le_iff.mp hcut with h | h
        · exact absurd h (not_le.mpr hab)
        · exact h
      have halpha_best : alpha < best := lt_of_lt_of_le hab hba
      have hsc_eq : min best (child (childBoard s b m) alpha beta) =
          child (childBoard s b m) alpha beta := by
        rcases min_choice best (child (childBoard s b m) alpha beta) with h | h
        · exfalso
          rw [h] at hr_alpha
          exact absurd (lt_of_lt_of_le halpha_best hr_alpha) (lt_irrefl alpha)
        · exact h
      refine ⟨?_, ?_, ?_⟩
      · intro _
        have h1 : pv m ≤ child (childBoard s b m) alpha beta :=
          hm3.1 (hsc_eq ▸ hr_alpha)
        rw [hsc_eq]
        exact le_trans (foldl_min_le_self _ _) (le_trans (min_le_right best (pv m)) h1)
      · intro hbr
        exfalso
        exact absurd (lt_of_le_of_lt hr_alpha hab) (not_lt.mpr hbr)
      · intro har _
        exact absurd har (not_lt.mpr hr_alpha)
    · rw [if_neg hcut]
      have hcut' : alpha < min beta (min best (child (childBoard s b m) alpha beta)) :=
        not_le.mp hcut
      have hih := ih (min best (child (childBoard s b m) alpha beta)) alpha
        (min beta (min best (child (childBoard s b m) alpha beta)))
        (min_le_right beta _) hcut'
        (fun m2 hm2 => hmv m2 (List.mem_cons_of_mem m hm2))
      have hVr : (rest.map pv).foldl min (min best (child (childBoard s b m) alpha beta)) =
          min (min best (child (childBoard s b m) alpha beta))
            ((rest.map pv).foldl min ⊤) := foldl_min_acc _ _
      have hv : (rest.map pv).foldl min (min best (pv m)) =
          min (min best (pv m)) ((rest.map pv).foldl min ⊤) := foldl_min_acc _ _
      have hrle : abMinLoop child s b rest
          (min best (child (childBoard s b m) alpha beta)) alpha
          (min beta (min best (child (childBoard s b m) alpha beta))) ≤
          min best (child (childBoard s b m) alpha beta) :=
        abMinLoop_le _ _ _ _ _ _ _
      refine ⟨?_, ?_, ?_⟩
      · intro hle
        have h1 := hih.1 hle
        rw [hVr] at h1
        rcases min_le_iff.mp h1 with h2 | h2
        · rcases min_le_iff.mp h2 with h3 | h3
          · exfalso
            exact absurd (lt_of_le_of_lt (le_trans hba (le_trans h3 hle)) hab)
              (lt_irrefl _)
          · have h4 : pv m ≤ child (childBoard s b m) alpha beta :=
              hm3.1 (le_trans h3 hle)
            rw [hv]
            exact le_trans (min_le_left _ _)
              (le_trans (min_le_right best (pv m)) (le_trans h4 h3))
        · rw [hv]
          exact le_trans (min_le_right _ _) h2
      · intro hbr
        have hb2r : min beta (min best (child (childBoard s b m) alpha beta)) ≤
            abMinLoop child s b rest
              (min best (child (childBoard s b m) alpha beta)) alpha
              (min beta (min best (child (childBoard s b m) alpha beta))) :=
          le_trans (min_le_left _ _) hbr
        have h1 := hih.2.1 hb2r
        rw [hVr] at h1
        have hrbest : abMinLoop child s b rest
            (min best (child (childBoard s b m) alpha beta)) alpha
            (min beta (min best (child (childBoard s b m) alpha beta))) ≤ best :=
          le_trans h1 (le_trans (min_le_left _ _) (min_le_left best _))
        have hrsc : abMinLoop child s b rest
            (min best (child (childBoard s b m) alpha beta)) alpha
            (min beta (min best (child (childBoard s b m) alpha beta))) ≤
            child (childBoard s b m) alpha beta :=
          le_trans h1 (le_trans (min_le_left _ _) (min_le_right best _))
        have hrV : abMinLoop child s b rest
            (min best (child (childBoard s b m) alpha beta)) alpha
            (min beta (min best (child (childBoard s b m) alpha beta))) ≤
            (rest.map pv).foldl min ⊤ :=
          le_trans h1 (min_le_right _ _)
        have h4 : child (childBoard s b m) alpha beta ≤ pv m :=
          hm3.2.1 (le_trans hbr hrsc)
        rw [hv]
        exact le_min (le_min hrbest (le_trans hrsc h4)) hrV
      · intro har hrb
        by_cases hcase : abMinLoop child s b rest
            (min best (child (childBoard s b m) alpha beta)) alpha
            (min beta (min best (child (childBoard s b m) alpha beta))) <
            min beta (min best (child (childBoard s b m) alpha beta))
        · have heq := hih.2.2 har hcase
          have hscr : abMinLoop child s b rest
              (min best (child (childBoard s b m) alpha beta)) alpha
              (min beta (min best (child (childBoard s b m) alpha beta))) <
              min best (child (childBoard s b m) alpha beta) :=
            lt_of_lt_of_le hcase (min_le_right beta _)
          have hrV2 : abMinLoop child s b rest
              (min best (child (childBoard s b m) alpha beta)) alpha
              (min beta (min best (child (childBoard s b m) alpha beta))) =
              (rest.map pv).foldl min ⊤ := by
            rw [hVr] at heq
            rcases min_choice (min best (child (childBoard s b m) alpha beta))
              ((rest.map pv).foldl min ⊤) with h | h
            · exfalso
              exact absurd (lt_of_lt_of_eq hscr (heq.trans h).symm) (lt_irrefl _)
            · exact heq.trans h
          have hbestr : abMinLoop child s b rest
              (min best (child (childBoard s b m) alpha beta)) alpha
              (min beta (min best (child (childBoard s b m) alpha beta))) < best :=
            lt_of_lt_of_le hscr (min_le_left best _)
          have hscr2 : abMinLoop child s b rest
              (min best (child (childBoard s b m) alpha beta)) alpha
              (min beta (min best (child (childBoard s b m) alpha beta))) <
              child (childBoard s b m) alpha beta :=
            lt_of_lt_of_le hscr (min_le_right best _)
          have hpvm : abMinLoop child s b rest
              (min best (child (childBoard s b m) alpha beta)) alpha
              (min beta (min best (child (childBoard s b m) alpha beta))) ≤ pv m := by
            by_cases hsb : beta ≤ child (childBoard s b m) alpha beta
            · exact le_trans (le_of_lt hscr2) (hm3.2.1 hsb)
            · have hsb' : child (childBoard s b m) alpha beta < beta := not_le.mp hsb
              have hax : alpha < child (childBoard s b m) alpha beta :=
                lt_trans har hscr2
              rw [← hm3.2.2 hax hsb']
              exact le_of_lt hscr2
          rw [hv, ← hrV2]
          exact (min_eq_right (le_min (le_of_lt hbestr) hpvm)).symm
        · have hge := not_lt.mp hcase
          have hb2 : min best (child (childBoard s b m) alpha beta) ≤
              abMinLoop child s b rest
                (min best (child (childBoard s b m) alpha beta)) alpha
                (min beta (min best (child (childBoard s b m) alpha beta))) := by
            rcases min_le_iff.mp hge with h | h
            · exact absurd h (not_le.mpr hrb)
            · exact h
          have hr_eq : abMinLoop child s b rest
              (min best (child (childBoard s b m) alpha beta)) alpha
              (min beta (min best (child (childBoard s b m) alpha beta))) =
              min best (child (childBoard s b m) alpha beta) :=
            le_antisymm hrle hb2
          have hbest_gt : abMinLoop child s b rest
              (min best (child (childBoard s b m) alpha beta)) alpha
              (min beta (min best (child (childBoard s b m) alpha beta))) < best :=
            lt_of_lt_of_le hrb hba
          have hr_sc : abMinLoop child s b rest
              (min best (child (childBoard s b m) alpha beta)) alpha
              (min beta (min best (child (childBoard s b m) alpha beta))) =
              child (childBoard s b m) alpha beta := by
            rcases min_choice best (child (childBoard s b m) alpha beta) with h | h
            · exfalso
              exact absurd (lt_of_lt_of_eq hbest_gt (hr_eq.trans h).symm) (lt_irrefl _)
            · exact hr_eq.trans h
          have h5 : child (childBoard s b m) alpha beta = pv m :=
            hm3.2.2 (hr_sc ▸ har) (hr_sc ▸ hrb)
          have h1 := hih.2.1 hge
          rw [hVr] at h1
          have hVge : abMinLoop child s b rest
              (min best (child (childBoard s b m) alpha beta)) alpha
              (min beta (min best (child (childBoard s b m) alpha beta))) ≤
              (rest.map pv).foldl min ⊤ :=
            le_trans h1 (min_le_right _ _)
          rw [hv]
          refine le_antisymm (le_min (le_min ?_ ?_) hVge) ?_
          · exact le_of_lt hbest_gt
          · exact le_of_eq (hr_sc.trans h5)
          · exact le_trans (min_le_left _ _)
              (le_trans (min_le_right best (pv m)) (le_of_eq (hr_sc.trans h5).symm))

theorem minimax_rel3 (p : Cell) :
    ∀ (d : Nat) (b : Board) (isMax : Bool) (alpha beta : E), alpha < beta →
      Rel3 (minimax p d b isMax alpha beta) (plainMinimax p d b isMax) alpha beta := by
  intro d
  induction d with
  | zero =>
    intro b isMax alpha beta _
    rw [minimax_eq, plainMinimax_eq]
    split_ifs
    all_goals exact rel3_of_eq
  | succ d' ih =>
    intro b isMax alpha beta hab
    rw [minimax_eq, plainMinimax_eq]
    split_ifs with h1 h2 h3 h4
    · exact rel3_of_eq
    · exact rel3_of_eq
    · exact rel3_of_eq
    · exact abMaxLoop_rel3 (fun b2 a2 b3 => minimax p d' b2 false a2 b3) p b
        (fun m => plainMinimax p d' (childBoard p b m) false)
        (sortMoves (get_empty_positions b)) ⊥ alpha beta bot_le hab
        (fun m _ a2 b3 h => ih (childBoard p b m) false a2 b3 h)
    · exact abMinLoop_rel3 (fun b2 a2 b3 => minimax p d' b2 true a2 b3) (opponent p) b
        (fun m => plainMinimax p d' (childBoard (opponent p) b m) true)
        (sortMoves (get_empty_positions b)) ⊤ alpha beta le_top hab
        (fun m _ a2 b3 h => ih (childBoard (opponent p) b m) true a2 b3 h)

theorem alphabeta_exact (p : Cell) (d : Nat) (b : Board) (isMax : Bool) :
    minimax p d b isMax ⊥ ⊤ = plainMinimax p d b isMax := by
  have h3 := minimax_rel3 p d b isMax ⊥ ⊤ bot_lt_top_E
  obtain ⟨hv1, hv2⟩ := plainMinimax_finite p d b isMax
  by_cases hle : minimax p d b isMax ⊥ ⊤ ≤ ⊥
  · exact absurd (le_trans (h3.1 hle) hle) (not_le.mpr hv1)
  · have har : (⊥ : E) < minimax p d b isMax ⊥ ⊤ := not_le.mp hle
    by_cases hge : (⊤ : E) ≤ minimax p d b isMax ⊥ ⊤
    · exact absurd (le_trans hge (h3.2.1 hge)) (not_le.mpr hv2)
    · exact h3.2.2 har (not_le.mp hge)

theorem fuelMaxLoop_cons (child : Board → E → E → Option E) (s : Cell) (b : Board)
    (m : Nat × Nat) (rest : List (Nat × Nat)) (best alpha beta : E) :
    fuelMaxLoop child s b (m :: rest) best alpha beta =
      (match child (childBoard s b m) alpha beta with
      | none => none
      | some sc =>
        if beta ≤ max alpha (max best sc) then some (max best sc)
        else fuelMaxLoop child s b rest (max best sc) (max alpha (max best sc)) beta) := rfl

theorem fuelMinLoop_cons (child : Board → E → E → Option E) (s : Cell) (b : Board)
    (m : Nat × Nat) (rest : List (Nat × Nat)) (best alpha beta : E) :
    fuelMinLoop child s b (m :: rest) best alpha beta =
      (match child (childBoard s b m) alpha beta with
      | none => none
      | some sc =>
        if min beta (min best sc) ≤ alpha then some (min best sc)
        else fuelMinLoop child s b rest (min best sc) alpha (min beta (min best sc))) := rfl

theorem fuelMaxLoop_eq (child : Board → E → E → Option E) (rec : Board → E → E → E)
    (s : Cell) (b : Board)
    (hc : ∀ b' a2 b3, child b' a2 b3 = some (rec b' a2 b3)) :
    ∀ (moves : List (Nat × Nat)) (best alpha beta : E),
      fuelMaxLoop child s b moves best alpha beta =
        some (abMaxLoop rec s b moves best alpha beta) := by
  intro moves
  induction moves with
  | nil => intro best alpha beta; rfl
  | cons m rest ih =>
    intro best alpha beta
    rw [fuelMaxLoop_cons, hc (childBoard s b m) alpha beta, abMaxLoop_cons]
    show (if beta ≤ max alpha (max best (rec (childBoard s b m) alpha beta))
        then some (max best (rec (childBoard s b m) alpha beta))
        else fuelMaxLoop child s b rest (max best (rec (childBoard s b m) alpha beta))
          (max alpha (max best (rec (childBoard s b m) alpha beta))) beta) = _
    by_cases hcut : beta ≤ max alpha (max best (rec (childBoard s b m) alpha beta))
    · rw [if_pos hcut, if_pos hcut]
    · rw [if_neg hcut, if_neg hcut]
      exact ih _ _ beta

theorem fuelMinLoop_eq (child : Board → E → E → Option E) (rec : Board → E → E → E)
    (s : Cell) (b : Board)
    (hc : ∀ b' a2 b3, child b' a2 b3 = some (rec b' a2 b3)) :
    ∀ (moves : List (Nat × Nat)) (best alpha beta : E),
      fuelMinLoop child s b moves best alpha beta =
        some (abMinLoop rec s b moves best alpha beta) := by
  intro moves
  induction moves with
  | nil => intro best alpha beta; rfl
  | cons m rest ih =>
    intro best alpha beta
    rw [fuelMinLoop_cons, hc (childBoard s b m) alpha beta, abMinLoop_cons]
    show (if min beta (min best (rec (childBoard s b m) alpha beta)) ≤ alpha
        then some (min best (rec (childBoard s b m) alpha beta))
        else fuelMinLoop child s b rest (min best (rec (childBoard s b m) alpha beta))
          alpha (min beta (min best (rec (childBoard s b m) alpha beta)))) = _
    by_cases hcut : min beta (min best (rec (childBoard s b m) alpha beta)) ≤ alpha
    · rw [if_pos hcut, if_pos hcut]
    · rw [if_neg hcut, if_neg hcut]
      exact ih _ alpha _

theorem minimaxFuel_succ (p : Cell) (fuel d : Nat) (b : Board) (isMax : Bool)
    (alpha beta : E) :
    minimaxFuel p (fuel + 1) d b isMax alpha beta =
      (if check_win b p then some (toE (1000 + d))
      else if check_win b (opponent p) then some (toE (-1000 - d))
      else if is_full b then some (toE 0)
      else
        match d with
        | 0 => some (toE (evaluate_board p b))
        | d' + 1 =>
          let moves := sortMoves (get_empty_positions b)
          if isMax then
            fuelMaxLoop (fun b2 a2 b3 => minimaxFuel p fuel d' b2 false a2 b3) p b
              moves ⊥ alpha beta
          else
            fuelMinLoop (fun b2 a2 b3 => minimaxFuel p fuel d' b2 true a2 b3)
              (opponent p) b moves ⊤ alpha beta) := by
  rw [minimaxFuel.eq_def]

theorem minimaxFuel_eq_minimax (p : Cell) :
    ∀ (fuel d : Nat), d < fuel → ∀ (b : Board) (isMax : Bool) (alpha beta : E),
      minimaxFuel p fuel d b isMax alpha beta =
        some (minimax p d b isMax alpha beta) := by
  intro fuel
  induction fuel with
  | zero => intro d hd; exact absurd hd (Nat.not_lt_zero d)
  | succ fuel' ih =>
    intro d hd b isMax alpha beta
    cases d with
    | zero =>
      rw [minimaxFuel_succ, minimax_eq]
      split_ifs
      all_goals rfl
    | succ d' =>
      rw [minimaxFuel_succ, minimax_eq]
      split_ifs with h1 h2 h3 h4
      · rfl
      · rfl
      · rfl
      · exact fuelMaxLoop_eq (fun b2 a2 b3 => minimaxFuel p fuel' d' b2 false a2 b3)
          (fun b2 a2 b3 => minimax p d' b2 false a2 b3) p b
          (fun b' a2 b3 => ih d' (by omega) b' false a2 b3) _ ⊥ alpha beta
      · exact fuelMinLoop_eq (fun b2 a2 b3 => minimaxFuel p fuel' d' b2 true a2 b3)
          (fun b2 a2 b3 => minimax p d' b2 true a2 b3) (opponent p) b
          (fun b' a2 b3 => ih d' (by omega) b' true a2 b3) _ ⊤ alpha beta

theorem bmLoop_nil (p : Cell) (dl : Nat) (b : Board) (best : E)
    (bm : Option (Nat × Nat)) (alpha : E) :
    bmLoop p dl b [] best bm alpha = (best, bm) := rfl

theorem bmLoop_cons (p : Cell) (dl : Nat) (b : Board) (m : Nat × Nat)
    (rest : List (Nat × Nat)) (best : E) (bm : Option (Nat × Nat)) (alpha : E) :
    bmLoop p dl b (m :: rest) best bm alpha =
      bmLoop p dl b rest
        (if best < minimax p (dl - 1) (childBoard p b m) false alpha ⊤
         then minimax p (dl - 1) (childBoard p b m) false alpha ⊤ else best)
        (if best < minimax p (dl - 1) (childBoard p b m) false alpha ⊤
         then some m else bm)
        (max alpha
          (if best < minimax p (dl - 1) (childBoard p b m) false alpha ⊤
           then minimax p (dl - 1) (childBoard p b m) false alpha ⊤ else best)) := rfl

theorem get_best_move_eq (b : Board) (p : Cell) (dl : Nat) :
    get_best_move b p dl =
      (bmLoop p dl b (sortMoves (get_empty_positions b)) ⊥ none ⊥).2 := by
  unfold get_best_move
  show (match (bmLoop p dl b (sortMoves (get_empty_positions b)) ⊥ none ⊥).2 with
    | some m => some m
    | none => none) = (bmLoop p dl b (sortMoves (get_empty_positions b)) ⊥ none ⊥).2
  cases (bmLoop p dl b (sortMoves (get_empty_positions b)) ⊥ none ⊥).2 with
  | none => rfl
  | some m => rfl

theorem minimax_zero_window (p : Cell) (b : Board) (isMax : Bool)
    (alpha beta alpha2 beta2 : E) :
    minimax p 0 b isMax alpha beta = minimax p 0 b isMax alpha2 beta2 := by
  rw [minimax_eq, minimax_eq]

theorem bmLoop_some (p : Cell) (dl : Nat) (b : Board) :
    ∀ (l : List (Nat × Nat)) (best : E) (bm : Option (Nat × Nat)) (alpha : E),
      bm.isSome = true → ((bmLoop p dl b l best bm alpha).2).isSome = true := by
  intro l
  induction l with
  | nil => intro best bm alpha h; exact h
  | cons m rest ih =>
    intro best bm alpha h
    rw [bmLoop_cons]
    by_cases hlt : best < minimax p (dl - 1) (childBoard p b m) false alpha ⊤
    · rw [if_pos hlt, if_pos hlt]
      exact ih _ _ _ rfl
    · rw [if_neg hlt, if_neg hlt]
      exact ih _ _ _ h

theorem bmLoop1_stay (p : Cell) (b : Board) :
    ∀ (l : List (Nat × Nat)) (best : E) (bm : Option (Nat × Nat)) (alpha : E),
      (∀ m ∈ l, minimax p 0 (childBoard p b m) false ⊥ ⊤ ≤ best) →
      (bmLoop p 1 b l best bm alpha).2 = bm := by
  intro l
  induction l with
  | nil => intro best bm alpha _; rfl
  | cons m rest ih =>
    intro best bm alpha hall
    rw [bmLoop_cons]
    have hw : minimax p (1 - 1) (childBoard p b m) false alpha ⊤ =
        minimax p 0 (childBoard p b m) false ⊥ ⊤ :=
      minimax_zero_window p (childBoard p b m) false alpha ⊤ ⊥ ⊤
    have hnlt : ¬ best < minimax p (1 - 1) (childBoard p b m) false alpha ⊤ := by
      rw [hw]
      exact not_lt.mpr (hall m (List.mem_cons_self m rest))
    rw [if_neg hnlt, if_neg hnlt]
    exact ih best bm _ (fun m2 hm2 => hall m2 (List.mem_cons_of_mem m hm2))

theorem bmLoop1_hits (p : Cell) (b : Board) :
    ∀ (l : List (Nat × Nat)) (best : E) (bm : Option (Nat × Nat)) (alpha : E),
      best < toE 1000 →
      (∀ m ∈ l, minimax p 0 (childBoard p b m) false ⊥ ⊤ ≤ toE 1000) →
      (∃ m ∈ l, minimax p 0 (childBoard p b m) false ⊥ ⊤ = toE 1000) →
      ∃ m', (bmLoop p 1 b l best bm alpha).2 = some m' ∧ m' ∈ l ∧
        minimax p 0 (childBoard p b m') false ⊥ ⊤ = toE 1000 := by
  intro l
  induction l with
  | nil =>
    intro best bm alpha _ _ hex
    obtain ⟨m, hm, _⟩ := hex
    cases hm
  | cons m rest ih =>
    intro best bm alpha hbest hall hex
    rw [bmLoop_cons]
    have hw : minimax p (1 - 1) (childBoard p b m) false alpha ⊤ =
        minimax p 0 (childBoard p b m) false ⊥ ⊤ :=
      minimax_zero_window p (childBoard p b m) false alpha ⊤ ⊥ ⊤
    by_cases hgm : minimax p 0 (childBoard p b m) false ⊥ ⊤ = toE 1000
    · have hup : best < minimax p (1 - 1) (childBoard p b m) false alpha ⊤ := by
        rw [hw, hgm]
        exact hbest
      rw [if_pos hup, if_pos hup]
      have hstay := bmLoop1_stay p b rest
        (minimax p (1 - 1) (childBoard p b m) false alpha ⊤) (some m)
        (max alpha (minimax p (1 - 1) (childBoard p b m) false alpha ⊤))
        (fun m2 hm2 => by
          rw [hw, hgm]
          exact hall m2 (List.mem_cons_of_mem m hm2))
      exact ⟨m, hstay, List.mem_cons_self m rest, hgm⟩
    · have hlt1000 : minimax p 0 (childBoard p b m) false ⊥ ⊤ < toE 1000 :=
        lt_of_le_of_ne (hall m (List.mem_cons_self m rest)) hgm
      have hbest2 : (if best < minimax p (1 - 1) (childBoard p b m) false alpha ⊤
          then minimax p (1 - 1) (childBoard p b m) false alpha ⊤ else best) < toE 1000 := by
        split
        · rw [hw]; exact hlt1000
        · exact hbest
      have hex2 : ∃ m2 ∈ rest, minimax p 0 (childBoard p b m2) false ⊥ ⊤ = toE 1000 := by
        obtain ⟨m0, hm0, h0⟩ := hex
        rcases List.mem_cons.mp hm0 with h | h
        · exact absurd (h ▸ h0) hgm
        · exact ⟨m0, h, h0⟩
      obtain ⟨m', h1, h2, h3⟩ := ih _ _ _ hbest2
        (fun m2 hm2 => hall m2 (List.mem_cons_of_mem m hm2)) hex2
      exact ⟨m', h1, List.mem_cons_of_mem m h2, h3⟩

theorem childBoard_congr (s : Cell) {b1 b2 : Board} (h : b1.cells = b2.cells)
    (m : Nat × Nat) : childBoard s b1 m = childBoard s b2 m := by
  unfold childBoard
  rw [get_board_copy_congr h]

theorem bmLoop_congr (p : Cell) (dl : Nat) {b1 b2 : Board} (h : b1.cells = b2.cells) :
    ∀ (l : List (Nat × Nat)) (best : E) (bm : Option (Nat × Nat)) (alpha : E),
      bmLoop p dl b1 l best bm alpha = bmLoop p dl b2 l best bm alpha := by
  intro l
  induction l with
  | nil => intro best bm alpha; rfl
  | cons m rest ih =>
    intro best bm alpha
    rw [bmLoop_cons, bmLoop_cons, childBoard_congr p h m, ih]

theorem evaluate_window_eq_spec (p : Cell) (w : List Cell) :
    evaluate_window p w = specWindowScore p w := by
  simp only [evaluate_window, specWindowScore]
  have hmem : (p ∈ w ∧ opponent p ∈ w) ↔ (0 < w.count p ∧ 0 < w.count (opponent p)) := by
    rw [List.count_pos_iff, List.count_pos_iff]
  rw [if_congr hmem rfl rfl]
  split_ifs <;> omega

theorem center_fold_eq (p : Cell) (b : Board) :
    ∀ (l : List (Nat × Nat)) (acc : Int),
      l.foldl
        (fun acc m =>
          if b.cells m.1 m.2 = p then acc + 3
          else if b.cells m.1 m.2 = opponent p then acc - 3
          else acc) acc =
      acc + (l.map fun m =>
        if b.cells m.1 m.2 = p then (3 : Int)
        else if b.cells m.1 m.2 = opponent p then -3
        else 0).sum := by
  intro l
  induction l with
  | nil => intro acc; simp
  | cons m t ih =>
    intro acc
    simp only [List.foldl_cons, List.map_cons, List.sum_cons]
    by_cases h1 : b.cells m.1 m.2 = p
    · rw [if_pos h1, if_pos h1, ih]
      ring
    · by_cases h2 : b.cells m.1 m.2 = opponent p
      · rw [if_neg h1, if_pos h2, if_neg h1, if_pos h2, ih]
        ring
      · rw [if_neg h1, if_neg h2, if_neg h1, if_neg h2, ih]
        ring

theorem centerBonus_eq_region (p : Cell) (b : Board) :
    centerBonus p b = (center_region.map fun m =>
      if b.cells m.1 m.2 = p then (3 : Int)
      else if b.cells m.1 m.2 = opponent p then -3
      else 0).sum := rfl

theorem evaluate_board_eq_spec (p : Cell) (b : Board) :
    evaluate_board p b =
      ((allWindows b).map fun w => specWindowScore p w).sum + centerBonus p b := by
  unfold evaluate_board evaluate_lines allWindows
  rw [center_fold_eq, centerBonus_eq_region]
  simp only [List.map_append, List.sum_append, List.map_flatMap, List.map_map,
    Function.comp_def, evaluate_window_eq_spec]
  ring

theorem check_win_iff (b : Board) (s : Cell) :
    check_win b s = true ↔ HasFourRun b s := by
  unfold check_win HasFourRun
  simp only [Bool.or_eq_true, List.any_eq_true, List.all_eq_true, List.mem_range,
    List.mem_range'_1, decide_eq_true_eq]
  constructor
  · rintro (((⟨r, hr, c, hc, hall⟩ | ⟨r, hr, c, hc, hall⟩) | ⟨r, hr, c, hc, hall⟩) |
      ⟨r, hr, c, hc, hall⟩)
    · exact Or.inl ⟨r, c, hr, by omega, fun i hi => hall i (by omega)⟩
    · exact Or.inr (Or.inl ⟨r, c, by omega, hc, fun i hi => hall i (by omega)⟩)
    · exact Or.inr (Or.inr (Or.inl ⟨r, c, by omega, by omega, fun i hi => hall i (by omega)⟩))
    · exact Or.inr (Or.inr (Or.inr ⟨r, c, by omega, by omega, by omega,
        fun i hi => hall i (by omega)⟩))
  · rintro (⟨r, c, hr, hc, hall⟩ | ⟨r, c, hr, hc, hall⟩ | ⟨r, c, hr, hc, hall⟩ |
      ⟨r, c, hr, hc1, hc2, hall⟩)
    · exact Or.inl (Or.inl (Or.inl ⟨r, hr, c, by omega, fun i hi => hall i (by omega)⟩))
    · exact Or.inl (Or.inl (Or.inr ⟨r, by omega, c, hc, fun i hi => hall i (by omega)⟩))
    · exact Or.inl (Or.inr ⟨r, by omega, c, by omega, fun i hi => hall i (by omega)⟩)
    · exact Or.inr ⟨r, by omega, c, by omega, fun i hi => hall i (by omega)⟩

theorem score_completes (p : Cell) (b : Board) (m : Nat × Nat)
    (hc : completesAfter b p m = true) :
    minimax p 0 (childBoard p b m) false ⊥ ⊤ = toE 1000 := by
  rw [minimax_eq,
    if_pos (show check_win (childBoard p b m) p = true from hc)]
  exact congrArg toE (by norm_num)

theorem score_noncompletes (p : Cell) (b : Board) (m : Nat × Nat)
    (hc : completesAfter b p m = false)
    (he : evaluate_board p (childBoard p b m) < 1000) :
    minimax p 0 (childBoard p b m) false ⊥ ⊤ < toE 1000 := by
  rw [minimax_eq,
    if_neg (show ¬ check_win (childBoard p b m) p = true by
      rw [show check_win (childBoard p b m) p = false from hc]
      exact Bool.false_ne_true)]
  split_ifs with h2 h3 h4
  · rw [toE_lt_toE]
    norm_num
  · rw [toE_lt_toE]
    norm_num
  · exact h4.elim
  · show toE (evaluate_board p (childBoard p b m)) < toE 1000
    rw [toE_lt_toE]
    exact he


theorem bmLoop1_fst_ge (p : Cell) (b : Board) :
    ∀ (l : List (Nat × Nat)) (best : E) (bm : Option (Nat × Nat)) (alpha : E),
      best ≤ (bmLoop p 1 b l best bm alpha).1 := by
  intro l
  induction l with
  | nil => intro best bm alpha; exact le_refl best
  | cons m rest ih =>
    intro best bm alpha
    rw [bmLoop_cons]
    refine le_trans ?_ (ih _ _ _)
    split
    · exact le_of_lt (by assumption)
    · exact le_refl best

theorem bmLoop1_fst_ge_mem (p : Cell) (b : Board) :
    ∀ (l : List (Nat × Nat)) (best : E) (bm : Option (Nat × Nat)) (alpha : E),
      ∀ m ∈ l, minimax p 0 (childBoard p b m) false ⊥ ⊤ ≤ (bmLoop p 1 b l best bm alpha).1 := by
  intro l
  induction l with
  | nil => intro best bm alpha m hm; cases hm
  | cons m0 rest ih =>
    intro best bm alpha m hm
    rw [bmLoop_cons]
    have hw : minimax p (1 - 1) (childBoard p b m0) false alpha ⊤ =
        minimax p 0 (childBoard p b m0) false ⊥ ⊤ :=
      minimax_zero_window p (childBoard p b m0) false alpha ⊤ ⊥ ⊤
    rcases List.mem_cons.mp hm with h | h
    · subst h
      refine le_trans ?_ (bmLoop1_fst_ge p b rest _ _ _)
      by_cases hlt : best < minimax p (1 - 1) (childBoard p b m) false alpha ⊤
      · rw [if_pos hlt, ← hw]
      · rw [if_neg hlt, ← hw]
        exact not_lt.mp hlt
    · exact ih _ _ _ m h

theorem bmLoop1_snd_score (p : Cell) (b : Board) :
    ∀ (l : List (Nat × Nat)) (best : E) (bm : Option (Nat × Nat)) (alpha : E),
      (∀ m0, bm = some m0 → minimax p 0 (childBoard p b m0) false ⊥ ⊤ = best) →
      ∀ m', (bmLoop p 1 b l best bm alpha).2 = some m' →
        minimax p 0 (childBoard p b m') false ⊥ ⊤ = (bmLoop p 1 b l best bm alpha).1 := by
  intro l
  induction l with
  | nil =>
    intro best bm alpha hinv m' hm'
    exact hinv m' hm'
  | cons m0 rest ih =>
    intro best bm alpha hinv m' hm'
    rw [bmLoop_cons] at hm' ⊢
    have hw : minimax p (1 - 1) (childBoard p b m0) false alpha ⊤ =
        minimax p 0 (childBoard p b m0) false ⊥ ⊤ :=
      minimax_zero_window p (childBoard p b m0) false alpha ⊤ ⊥ ⊤
    by_cases hlt : best < minimax p (1 - 1) (childBoard p b m0) false alpha ⊤
    · rw [if_pos hlt] at hm' ⊢
      refine ih _ _ _ ?_ m' hm'
      intro m1 hm1
      rw [if_pos hlt] at hm1
      obtain rfl := Option.some.inj hm1
      exact hw.symm
    · rw [if_neg hlt] at hm' ⊢
      refine ih _ _ _ ?_ m' hm'
      intro m1 hm1
      rw [if_neg hlt] at hm1
      exact hinv m1 hm1

set_option maxRecDepth 10000 in
/-- Claim C1 (counterexample): on a board where X can complete a
four-in-a-row in one move at (0, 3), the search at depth limit 1
returns a move whose placement does not produce a winning line: the
heuristic total of this X-rich board exceeds the fixed win score of
1000, so a non-completing move outscores every completing one. -/
theorem c1_forced_win_counterexample :
    check_win cexBoard Cell.X = false ∧
    completesAfter cexBoard Cell.X (0, 3) = true ∧
    (get_best_move cexBoard Cell.X 1).isSome = true ∧
    completesAfter cexBoard Cell.X
      ((get_best_move cexBoard Cell.X 1).getD (0, 0)) = false := by
  have hne : get_empty_positions cexBoard ≠ [] := by decide
  obtain ⟨m1, rest, heq⟩ := List.exists_cons_of_ne_nil (sortMoves_ne_nil hne)
  have hsome : ((bmLoop Cell.X 1 cexBoard
      (sortMoves (get_empty_positions cexBoard)) ⊥ none ⊥).2).isSome = true := by
    rw [heq, bmLoop_cons]
    have hbots : (⊥ : E) < minimax Cell.X (1 - 1) (childBoard Cell.X cexBoard m1) false ⊥ ⊤ :=
      (minimax_finite Cell.X (1 - 1) (childBoard Cell.X cexBoard m1) false ⊥ ⊤).1
    rw [if_pos hbots, if_pos hbots]
    exact bmLoop_some Cell.X 1 cexBoard rest _ (some m1) _ rfl
  obtain ⟨m', hm'⟩ := Option.isSome_iff_exists.mp hsome
  have hq : get_best_move cexBoard Cell.X 1 = some m' :=
    (get_best_move_eq cexBoard Cell.X 1).trans hm'
  have hbig : toE 1000 <
      minimax Cell.X 0 (childBoard Cell.X cexBoard (3, 4)) false ⊥ ⊤ := by decide
  have hmem : (3, 4) ∈ sortMoves (get_empty_positions cexBoard) :=
    mem_sortMoves.mpr (by decide)
  have hscore : minimax Cell.X 0 (childBoard Cell.X cexBoard m') false ⊥ ⊤ =
      (bmLoop Cell.X 1 cexBoard (sortMoves (get_empty_positions cexBoard)) ⊥ none ⊥).1 :=
    bmLoop1_snd_score Cell.X cexBoard _ ⊥ none ⊥
      (fun m0 h => Option.noConfusion h) m' hm'
  have hge : minimax Cell.X 0 (childBoard Cell.X cexBoard (3, 4)) false ⊥ ⊤ ≤
      (bmLoop Cell.X 1 cexBoard (sortMoves (get_empty_positions cexBoard)) ⊥ none ⊥).1 :=
    bmLoop1_fst_ge_mem Cell.X cexBoard _ ⊥ none ⊥ (3, 4) hmem
  have hgt : toE 1000 < minimax Cell.X 0 (childBoard Cell.X cexBoard m') false ⊥ ⊤ :=
    lt_of_lt_of_le hbig (le_trans hge (le_of_eq hscore.symm))
  refine ⟨by decide, by decide, ?_, ?_⟩
  · rw [hq]
    rfl
  · rw [hq]
    show completesAfter cexBoard Cell.X m' = false
    by_contra hc
    have hct : completesAfter cexBoard Cell.X m' = true := by
      revert hc
      cases completesAfter cexBoard Cell.X m' <;> simp
    have h1000 := score_completes Cell.X cexBoard m' hct
    rw [h1000] at hgt
    exact absurd hgt (lt_irrefl _)

/-- Claim C1 (amended): at depth limit 1, on every board where some empty
cell completes a win for the moving symbol and every placement that does
not complete a win scores heuristically below 1000, the returned best
move is a completing move. -/
theorem c1_forced_win_depth1 (b : Board) (p : Cell)
    (hex : ∃ m ∈ get_empty_positions b, completesAfter b p m = true)
    (hall : ∀ m ∈ get_empty_positions b, completesAfter b p m = false →
      evaluate_board p (childBoard p b m) < 1000) :
    ∃ m, get_best_move b p 1 = some m ∧ completesAfter b p m = true := by
  have hle : ∀ m ∈ sortMoves (get_empty_positions b),
      minimax p 0 (childBoard p b m) false ⊥ ⊤ ≤ toE 1000 := by
    intro m hm
    by_cases hc : completesAfter b p m = true
    · exact le_of_eq (score_completes p b m hc)
    · have hcf : completesAfter b p m = false := by
        revert hc
        cases completesAfter b p m <;> simp
      exact le_of_lt (score_noncompletes p b m hcf
        (hall m (mem_sortMoves.mp hm) hcf))
  obtain ⟨m0, hm0, hc0⟩ := hex
  obtain ⟨m', h1, h2, h3⟩ := bmLoop1_hits p b (sortMoves (get_empty_positions b)) ⊥ none ⊥
    (bot_lt_toE 1000) hle ⟨m0, mem_sortMoves.mpr hm0, score_completes p b m0 hc0⟩
  refine ⟨m', ?_, ?_⟩
  · rw [get_best_move_eq]
    exact h1
  · by_contra hnc
    have hcf : completesAfter b p m' = false := by
      revert hnc
      cases completesAfter b p m' <;> simp
    have hlt := score_noncompletes p b m' hcf (hall m' (mem_sortMoves.mp h2) hcf)
    rw [h3] at hlt
    exact absurd hlt (lt_irrefl _)

set_option maxRecDepth 10000 in
/-- Claim C1 (witness): on the nearly full board the amended statement
applies, and the move returned by the depth-1 search completes a win. -/
theorem c1_forced_win_depth1_witness :
    completesAfter nearFullBoard Cell.X
      ((get_best_move nearFullBoard Cell.X 1).getD (0, 0)) = true := by
  obtain ⟨m, h1, h2⟩ := c1_forced_win_depth1 nearFullBoard Cell.X (by decide) (by decide)
  rw [h1]
  exact h2

/-- Claim C2: for every board, depth and side to move, the score of the
alpha-beta search at the full window (minus infinity, plus infinity)
equals the score of the exhaustive minimax over the same tree, with the
same terminal values and the same heuristic at depth 0. -/
theorem c2_alphabeta_equivalence (p : Cell) (d : Nat) (b : Board) (isMax : Bool) :
    minimax p d b isMax ⊥ ⊤ = plainMinimax p d b isMax :=
  alphabeta_exact p d b isMax

/-- Claim C3: the terminal checks of the search run in priority order: a
winning line for the engine's own symbol scores 1000 plus depth
regardless of everything else; otherwise an opponent winning line scores
minus 1000 minus depth; otherwise a full board scores 0; otherwise at
depth 0 the heuristic evaluator decides the score. -/
theorem c3_terminal_priority (p : Cell) (d : Nat) (b : Board) (isMax : Bool)
    (alpha beta : E) :
    (check_win b p = true → minimax p d b isMax alpha beta = toE (1000 + d)) ∧
    (check_win b p = false → check_win b (opponent p) = true →
      minimax p d b isMax alpha beta = toE (-1000 - d)) ∧
    (check_win b p = false → check_win b (opponent p) = false → is_full b = true →
      minimax p d b isMax alpha beta = toE 0) ∧
    (check_win b p = false → check_win b (opponent p) = false → is_full b = false →
      minimax p 0 b isMax alpha beta = toE (evaluate_board p b)) := by
  refine ⟨?_, ?_, ?_, ?_⟩
  · intro h1
    rw [minimax_eq, if_pos h1]
  · intro h1 h2
    rw [minimax_eq, if_neg (by simp [h1]), if_pos h2]
  · intro h1 h2 h3
    rw [minimax_eq, if_neg (by simp [h1]), if_neg (by simp [h2]), if_pos h3]
  · intro h1 h2 h3
    rw [minimax_eq, if_neg (by simp [h1]), if_neg (by simp [h2]), if_neg (by simp [h3])]

/-- Claim C3 (witness): a completed row for X at depth 2 scores 1002 no
matter the window or side, and the empty board at depth 0 scores exactly
its heuristic evaluation. -/
theorem c3_terminal_priority_witness :
    minimax Cell.X 2 rowWinBoard true ⊥ ⊤ = toE (1000 + (2 : Nat)) ∧
    minimax Cell.X 0 emptyBoard false ⊥ ⊤ = toE (evaluate_board Cell.X emptyBoard) := by
  constructor
  · exact (c3_terminal_priority Cell.X 2 rowWinBoard true ⊥ ⊤).1 (by decide)
  · exact (c3_terminal_priority Cell.X 0 emptyBoard false ⊥ ⊤).2.2.2
      (by decide) (by decide) (by decide)

/-- Claim C4: the window evaluator agrees with the specified occupancy
table on every window, and the board heuristic is exactly the sum of the
table over every contiguous 4-cell window in all four orientations plus
the center-block positional bonus. -/
theorem c4_heuristic_decomposition (p : Cell) :
    (∀ w : List Cell, evaluate_window p w = specWindowScore p w) ∧
    (∀ b : Board, evaluate_board p b =
      ((allWindows b).map fun w => specWindowScore p w).sum + centerBonus p b) :=
  ⟨evaluate_window_eq_spec p, evaluate_board_eq_spec p⟩

/-- Claim C5: win detection returns true exactly when some contiguous run
of four cells equal to the symbol exists along a row, a column, or either
diagonal direction; in particular it returns false whenever no such run
exists, such as on boards whose longest run is three. -/
theorem c5_check_win_characterization (b : Board) (s : Cell) :
    check_win b s = true ↔ HasFourRun b s :=
  check_win_iff b s

/-- Claim C6: placing a symbol succeeds exactly when both coordinates are
in range and the target cell is empty; on success exactly that cell is
written and the move is recorded as the last move; on failure the board
is returned unchanged. -/
theorem c6_make_move_spec (b : Board) (row col : Int) (s : Cell) :
    ((make_move b row col s).1 = true ↔
      (0 ≤ row ∧ row < 9 ∧ 0 ≤ col ∧ col < 9 ∧ b.cells row.toNat col.toNat = Cell.e)) ∧
    ((make_move b row col s).1 = true →
      ((make_move b row col s).2.cells row.toNat col.toNat = s ∧
       (∀ r c : Nat, ¬(r = row.toNat ∧ c = col.toNat) →
         (make_move b row col s).2.cells r c = b.cells r c) ∧
       (make_move b row col s).2.lastMove = some (row, col))) ∧
    ((make_move b row col s).1 = false → (make_move b row col s).2 = b) := by
  unfold make_move
  by_cases h : 0 ≤ row ∧ row < 9 ∧ 0 ≤ col ∧ col < 9 ∧
      b.cells row.toNat col.toNat = Cell.e
  · rw [if_pos h]
    refine ⟨by simpa using h, ?_, ?_⟩
    · intro _
      refine ⟨?_, ?_, rfl⟩
      · show (if row.toNat = row.toNat ∧ col.toNat = col.toNat then s
          else b.cells row.toNat col.toNat) = s
        rw [if_pos ⟨rfl, rfl⟩]
      · intro r c hrc
        show (if r = row.toNat ∧ c = col.toNat then s else b.cells r c) = b.cells r c
        rw [if_neg hrc]
    · intro hfalse
      exact Bool.noConfusion hfalse
  · rw [if_neg h]
    refine ⟨?_, ?_, fun _ => rfl⟩
    · constructor
      · intro hfalse
        exact Bool.noConfusion hfalse
      · intro hcond
        exact absurd hcond h
    · intro htrue
      exact Bool.noConfusion htrue

/-- Claim C6 (witness): a legal placement on the empty board succeeds and
writes the cell, and an out-of-range placement leaves the board
unchanged. -/
theorem c6_make_move_spec_witness :
    (make_move emptyBoard 4 4 Cell.X).1 = true ∧
    (make_move emptyBoard 4 4 Cell.X).2.cells 4 4 = Cell.X ∧
    (make_move emptyBoard (-1) 0 Cell.X).2 = emptyBoard := by
  have hs := c6_make_move_spec emptyBoard 4 4 Cell.X
  have ht : (make_move emptyBoard 4 4 Cell.X).1 = true := hs.1.mpr (by decide)
  refine ⟨ht, (hs.2.1 ht).1, ?_⟩
  exact (c6_make_move_spec emptyBoard (-1) 0 Cell.X).2.2 (by decide)

/-- Claim C7: the deep copy agrees with the original on every cell of the
grid; the copy's cell table is built by per-cell writes into a freshly
constructed board, so within the embedding the two boards share no state
and updating one value never changes the other. -/
theorem c7_board_copy_cells (b : Board) (r c : Nat) (h1 : r < 9) (h2 : c < 9) :
    (get_board_copy b).cells r c = b.cells r c := by
  rw [get_board_copy_cells, if_pos ⟨h1, h2⟩]

/-- Claim C7 (witness): the copy of the row-win board carries the same X
in the top row. -/
theorem c7_board_copy_cells_witness :
    (get_board_copy rowWinBoard).cells 0 2 = Cell.X :=
  (c7_board_copy_cells rowWinBoard 0 2 (by decide) (by decide)).trans (by decide)

/-- Claim C8: the candidate moves of the search are exactly the empty
cells taken in row-major order, and the ordering applied before search
lists them by ascending Manhattan distance from the center (4, 4) with
ties kept in the original row-major order, which is exactly the
distance-bucket concatenation of the empty-cell list. -/
theorem c8_move_ordering (b : Board) :
    get_empty_positions b =
      allPositions.filter (fun m => decide (b.cells m.1 m.2 = Cell.e)) ∧
    sortMoves (get_empty_positions b) = centerOrdered (get_empty_positions b) := by
  refine ⟨get_empty_positions_eq_filter b, sortMoves_eq_centerOrdered ?_⟩
  intro m hm
  obtain ⟨ha, hb2, _⟩ := mem_get_empty_positions.mp hm
  exact manhattan_lt_17 ha hb2

/-- Claim C9: the chosen move depends only on the cell contents, the
symbol and the depth limit — boards with identical cells yield identical
results — and whenever an empty cell exists the search returns a move, so
the random fallback branch is never taken. -/
theorem c9_deterministic (b1 b2 : Board) (p : Cell) (dl : Nat)
    (hcells : b1.cells = b2.cells) (hne : get_empty_positions b1 ≠ []) :
    get_best_move b1 p dl = get_best_move b2 p dl ∧
    (get_best_move b1 p dl).isSome = true := by
  constructor
  · rw [get_best_move_eq, get_best_move_eq, get_empty_positions_congr hcells,
      bmLoop_congr p dl hcells]
  · rw [get_best_move_eq]
    obtain ⟨m, rest, heq⟩ := List.exists_cons_of_ne_nil (sortMoves_ne_nil hne)
    rw [heq, bmLoop_cons]
    have hbots : (⊥ : E) < minimax p (dl - 1) (childBoard p b1 m) false ⊥ ⊤ :=
      (minimax_finite p (dl - 1) (childBoard p b1 m) false ⊥ ⊤).1
    rw [if_pos hbots, if_pos hbots]
    exact bmLoop_some p dl b1 rest _ (some m) _ rfl

/-- Claim C9 (witness): the empty board and an identical board that only
differs in its last-move record produce the same move, and a move is
produced. -/
theorem c9_deterministic_witness :
    get_best_move emptyBoard Cell.X 3 = get_best_move lastMoveBoard Cell.X 3 ∧
    (get_best_move emptyBoard Cell.X 3).isSome = true :=
  c9_deterministic emptyBoard lastMoveBoard Cell.X 3 rfl (by decide)

/-- Claim C10: the search instrumented with a call-depth budget returns
within any budget exceeding the remaining depth, and returns exactly the
uninstrumented search's score: the recursion depth strictly decreases and
the search terminates within depth-limit plies. -/
theorem c10_minimax_terminates (p : Cell) (fuel d : Nat) (h : d < fuel) (b : Board)
    (isMax : Bool) (alpha beta : E) :
    minimaxFuel p fuel d b isMax alpha beta = some (minimax p d b isMax alpha beta) :=
  minimaxFuel_eq_minimax p fuel d h b isMax alpha beta

/-- Claim C10 (witness): with budget 3 the instrumented search at depth 2
on the empty board returns the plain search's score. -/
theorem c10_minimax_terminates_witness :
    minimaxFuel Cell.X 3 2 emptyBoard true ⊥ ⊤ =
      some (minimax Cell.X 2 emptyBoard true ⊥ ⊤) :=
  c10_minimax_terminates Cell.X 3 2 (by decide) emptyBoard true ⊥ ⊤
